import Mathlib

/-
Verification of the CSL-PyKernel toolchain: the `mini_cc` expression engine
(AST, environment, evaluator), the `asc7` canonicalizer, the `fardbits`
bitmask builder, the CSL compiler and assembler, and the container codec
(`csl_any_collapse` Variant A, `collapse_pack`/`collapse_unpack` Variant B).

Python strings are modelled as lists of Unicode code points (`List Nat`)
or as `String`/`List Char` where convenient; byte strings as `List Nat`
with entries below 256; Python `dict` environments as key-ordered
association lists with first-occurrence lookup, in-place update and
first-occurrence deletion, which coincides with `dict` behaviour on
duplicate-free lists.
-/

set_option maxHeartbeats 1000000

namespace Collapse

/-! ## mini_cc.py: values, environment, AST, evaluator -/

/-- The unary builtins `add1` and `double` from `mini_cc.py`. -/
inductive Prim1 where
  | add1
  | double
deriving DecidableEq, Repr

/-- The curried binary helpers installed in the evaluation environment by
`collapse_unpack.py` (`sub`, `div`, `floordiv`, `mod`, `pow`). -/
inductive Prim2 where
  | sub
  | div
  | floordiv
  | mod
  | pow
deriving DecidableEq, Repr

/-- Runtime values of the expression engine: Python integers, floats
(modelled as exact rationals; the claims under verification do not depend
on IEEE-754 rounding of float arithmetic), `None`, the builtins, and a
partially applied curried binary builtin. -/
inductive Value where
  | vint (n : Int)
  | vfloat (q : ℚ)
  | vnone
  | vprim1 (p : Prim1)
  | vprim2 (p : Prim2)
  | vpart (p : Prim2) (a : Value)
deriving DecidableEq, Repr

/-- Python exceptions surfaced by the modelled code. -/
inductive Err where
  | nameError (s : String)
  | typeError
  | zeroDivError
  | keyError
  | notImpl
  | formatError (s : String)
deriving DecidableEq, Repr

/-- The evaluator's environment: `Runtime.env`, a Python `dict` modelled as
an association list (first occurrence wins, as in a duplicate-free dict). -/
abbrev Env : Type := List (String × Value)

/-- `self.env.get(name)` / `name in self.env`: first-occurrence lookup. -/
def envGet : Env → String → Option Value
  | [], _ => none
  | (k, w) :: e, s => if k = s then some w else envGet e s

/-- `self.env[name] = v`: replace the binding in place if the key is
present, else append it (Python dict insertion order). -/
def envSet : Env → String → Value → Env
  | [], s, v => [(s, v)]
  | (k, w) :: e, s, v => if k = s then (k, v) :: e else (k, w) :: envSet e s v

/-- `del self.env[name]`: remove the binding, or fail (`KeyError`) if the
key is absent. -/
def envDel? : Env → String → Option Env
  | [], _ => none
  | (k, w) :: e, s =>
    if k = s then some e else (envDel? e s).map (fun e' => (k, w) :: e')

/-- The binding Python's `env.get(name)` reports: `None` both for an absent
name and for a name bound to `None`. -/
def envGetD (e : Env) (s : String) : Value :=
  (envGet e s).getD .vnone

/-- Well-formedness of a dict model: keys occur at most once. -/
def EnvWF (e : Env) : Prop :=
  (e.map Prod.fst).Nodup

/-- No name is bound to `None`. -/
def NoNone (e : Env) : Prop :=
  ∀ p ∈ e, p.2 ≠ Value.vnone

instance (e : Env) : Decidable (EnvWF e) :=
  inferInstanceAs (Decidable ((e.map Prod.fst).Nodup))

instance (e : Env) : Decidable (NoNone e) :=
  inferInstanceAs (Decidable (∀ p ∈ e, p.2 ≠ Value.vnone))

/-- The expression engine's AST (`ZNode` with `ZOp` tags; the `args` list
and `meta` dictionary of each node shape are flattened into constructor
fields of the arity the evaluator consumes). -/
inductive ZNode where
  | INT (value : Int)
  | VAR (name : String)
  | ADD (a b : ZNode)
  | MUL (a b : ZNode)
  | APPLY (f a : ZNode)
  | LET (name : String) (val body : ZNode)
deriving DecidableEq, Repr

/-- Python `+` on the values that can arise here. -/
def vadd : Value → Value → Except Err Value
  | .vint a, .vint b => .ok (.vint (a + b))
  | .vint a, .vfloat q => .ok (.vfloat (a + q))
  | .vfloat q, .vint b => .ok (.vfloat (q + b))
  | .vfloat q, .vfloat r => .ok (.vfloat (q + r))
  | _, _ => .error .typeError

/-- Python `*` on the values that can arise here. -/
def vmul : Value → Value → Except Err Value
  | .vint a, .vint b => .ok (.vint (a * b))
  | .vint a, .vfloat q => .ok (.vfloat (a * q))
  | .vfloat q, .vint b => .ok (.vfloat (q * b))
  | .vfloat q, .vfloat r => .ok (.vfloat (q * r))
  | _, _ => .error .typeError

/-- `add1 = lambda x: x + 1` and `double = lambda x: x * 2`. -/
def applyPrim1 : Prim1 → Value → Except Err Value
  | .add1, .vint n => .ok (.vint (n + 1))
  | .add1, .vfloat q => .ok (.vfloat (q + 1))
  | .add1, _ => .error .typeError
  | .double, .vint n => .ok (.vint (n * 2))
  | .double, .vfloat q => .ok (.vfloat (q * 2))
  | .double, _ => .error .typeError

/-- Rational floor division, used for Python `//` on floats. -/
def qfloorDiv (a b : ℚ) : ℚ := ((a / b).floor : ℚ)

/-- The fully applied curried binary helpers (`a - b`, `a / b`, `a // b`,
`a % b`, `a ** b`); Python `/` on integers yields a float, `//` and `%`
floor toward negative infinity, `**` with a negative exponent yields a
float. -/
def applyPrim2 : Prim2 → Value → Value → Except Err Value
  | .sub, .vint a, .vint b => .ok (.vint (a - b))
  | .sub, .vint a, .vfloat q => .ok (.vfloat (a - q))
  | .sub, .vfloat q, .vint b => .ok (.vfloat (q - b))
  | .sub, .vfloat q, .vfloat r => .ok (.vfloat (q - r))
  | .sub, _, _ => .error .typeError
  | .div, .vint a, .vint b =>
    if b = 0 then .error .zeroDivError else .ok (.vfloat ((a : ℚ) / b))
  | .div, .vint a, .vfloat q =>
    if q = 0 then .error .zeroDivError else .ok (.vfloat (a / q))
  | .div, .vfloat q, .vint b =>
    if b = 0 then .error .zeroDivError else .ok (.vfloat (q / b))
  | .div, .vfloat q, .vfloat r =>
    if r = 0 then .error .zeroDivError else .ok (.vfloat (q / r))
  | .div, _, _ => .error .typeError
  | .floordiv, .vint a, .vint b =>
    if b = 0 then .error .zeroDivError else .ok (.vint (Int.fdiv a b))
  | .floordiv, .vint a, .vfloat q =>
    if q = 0 then .error .zeroDivError else .ok (.vfloat (qfloorDiv a q))
  | .floordiv, .vfloat q, .vint b =>
    if b = 0 then .error .zeroDivError else .ok (.vfloat (qfloorDiv q b))
  | .floordiv, .vfloat q, .vfloat r =>
    if r = 0 then .error .zeroDivError else .ok (.vfloat (qfloorDiv q r))
  | .floordiv, _, _ => .error .typeError
  | .mod, .vint a, .vint b =>
    if b = 0 then .error .zeroDivError else .ok (.vint (Int.fmod a b))
  | .mod, .vint a, .vfloat q =>
    if q = 0 then .error .zeroDivError else .ok (.vfloat (a - q * qfloorDiv a q))
  | .mod, .vfloat q, .vint b =>
    if b = 0 then .error .zeroDivError else .ok (.vfloat (q - b * qfloorDiv q b))
  | .mod, .vfloat q, .vfloat r =>
    if r = 0 then .error .zeroDivError else .ok (.vfloat (q - r * qfloorDiv q r))
  | .mod, _, _ => .error .typeError
  | .pow, .vint a, .vint b =>
    if 0 ≤ b then .ok (.vint (a ^ b.toNat))
    else if a = 0 then .error .zeroDivError
    else .ok (.vfloat (1 / (a : ℚ) ^ (-b).toNat))
  | .pow, _, _ => .error .typeError

/-- `f(a)` on an evaluated callee: unary builtins apply, a curried binary
builtin captures its first argument, a captured one completes; anything
else is not callable (`TypeError`). -/
def applyVal : Value → Value → Except Err Value
  | .vprim1 p, a => applyPrim1 p a
  | .vprim2 p, a => .ok (.vpart p a)
  | .vpart p x, a => applyPrim2 p x a
  | _, _ => .error .typeError

/-- `Runtime.eval`, with the shared mutable environment threaded
explicitly: the result and the dictionary state after the call.  The `LET`
case mirrors the source exactly: evaluate the bound value, save
`env.get(name)` (conflating an absent name with a `None` binding), rebind,
evaluate the body, and in a `finally` delete the binding if the saved
value was `None` (a deletion that raises `KeyError`, superseding the
body's outcome, when the name is absent) or restore the saved value
otherwise. -/
def eval : ZNode → Env → Except Err Value × Env
  | .INT v, e => (.ok (.vint v), e)
  | .VAR s, e =>
    match envGet e s with
    | some v => (.ok v, e)
    | none => (.error (.nameError s), e)
  | .ADD a b, e =>
    match eval a e with
    | (.ok va, e1) =>
      match eval b e1 with
      | (.ok vb, e2) => (vadd va vb, e2)
      | (.error er, e2) => (.error er, e2)
    | (.error er, e1) => (.error er, e1)
  | .MUL a b, e =>
    match eval a e with
    | (.ok va, e1) =>
      match eval b e1 with
      | (.ok vb, e2) => (vmul va vb, e2)
      | (.error er, e2) => (.error er, e2)
    | (.error er, e1) => (.error er, e1)
  | .APPLY f a, e =>
    match eval f e with
    | (.ok vf, e1) =>
      match eval a e1 with
      | (.ok va, e2) => (applyVal vf va, e2)
      | (.error er, e2) => (.error er, e2)
    | (.error er, e1) => (.error er, e1)
  | .LET nm v b, e =>
    match eval v e with
    | (.error er, e1) => (.error er, e1)
    | (.ok vv, e1) =>
      let old := (envGet e1 nm).getD .vnone
      let p := eval b (envSet e1 nm vv)
      if old = .vnone then
        match envDel? p.2 nm with
        | some e4 => (p.1, e4)
        | none => (.error .keyError, p.2)
      else (p.1, envSet p.2 nm old)

/-! ### Environment lemmas -/

theorem envGet_envSet_self (e : Env) (k : String) (v : Value) :
    envGet (envSet e k v) k = some v := by
  induction e with
  | nil => simp [envSet, envGet]
  | cons p e ih =>
    obtain ⟨k', w⟩ := p
    by_cases h : k' = k <;> simp [envSet, envGet, h, ih]

theorem envGet_envSet_ne (e : Env) (k k' : String) (v : Value) (h : k' ≠ k) :
    envGet (envSet e k v) k' = envGet e k' := by
  induction e with
  | nil =>
    simp only [envSet, envGet]
    rw [if_neg (fun hh => h hh.symm)]
  | cons p e ih =>
    obtain ⟨k0, w⟩ := p
    by_cases h0 : k0 = k
    · subst h0
      simp only [envSet, if_pos rfl, envGet]
      rw [if_neg (fun hh : k0 = k' => h hh.symm),
        if_neg (fun hh : k0 = k' => h hh.symm)]
    · simp only [envSet, if_neg h0, envGet, ih]

theorem envGet_eq_none_iff (e : Env) (k : String) :
    envGet e k = none ↔ k ∉ e.map Prod.fst := by
  induction e with
  | nil => simp [envGet]
  | cons p e ih =>
    obtain ⟨k0, w⟩ := p
    by_cases h0 : k0 = k
    · subst h0
      simp [envGet]
    · simp [envGet, h0, ih, Ne.symm h0]

theorem envDel?_eq_none (e : Env) (k : String) :
    envDel? e k = none ↔ envGet e k = none := by
  induction e with
  | nil => simp [envDel?, envGet]
  | cons p e ih =>
    obtain ⟨k0, w⟩ := p
    by_cases h0 : k0 = k <;> simp [envDel?, envGet, h0, ih]

theorem envGet_envDel?_ne (e e' : Env) (k k' : String)
    (hd : envDel? e k = some e') (h : k' ≠ k) :
    envGet e' k' = envGet e k' := by
  induction e generalizing e' with
  | nil => simp [envDel?] at hd
  | cons p e ih =>
    obtain ⟨k0, w⟩ := p
    by_cases h0 : k0 = k
    · subst h0
      simp only [envDel?, if_pos rfl] at hd
      obtain rfl := Option.some.inj hd
      rw [envGet, if_neg (fun hh : k0 = k' => h hh.symm)]
    · simp only [envDel?, if_neg h0] at hd
      cases hdd : envDel? e k with
      | none => rw [hdd] at hd; simp at hd
      | some e1 =>
        rw [hdd] at hd
        simp only [Option.map_some'] at hd
        obtain rfl := Option.some.inj hd
        rw [envGet, envGet]
        by_cases h1 : k0 = k' <;> simp [h1, ih e1 hdd]

theorem keys_envSet (e : Env) (k : String) (v : Value) :
    (envSet e k v).map Prod.fst =
      if envGet e k = none then e.map Prod.fst ++ [k] else e.map Prod.fst := by
  induction e with
  | nil => simp [envSet, envGet]
  | cons p e ih =>
    obtain ⟨k0, w⟩ := p
    by_cases h0 : k0 = k
    · subst h0
      simp [envSet, envGet]
    · simp only [envSet, if_neg h0, envGet, List.map_cons, ih]
      by_cases h1 : envGet e k = none <;> simp [h0, h1]

theorem envWF_envSet (e : Env) (k : String) (v : Value) (h : EnvWF e) :
    EnvWF (envSet e k v) := by
  unfold EnvWF at *
  rw [keys_envSet]
  by_cases h1 : envGet e k = none
  · rw [if_pos h1]
    have hk : k ∉ e.map Prod.fst := (envGet_eq_none_iff e k).1 h1
    simp [List.nodup_append, h, hk]
  · rw [if_neg h1]
    exact h

theorem sublist_envDel? (e e' : Env) (k : String) (hd : envDel? e k = some e') :
    e'.Sublist e := by
  induction e generalizing e' with
  | nil => simp [envDel?] at hd
  | cons p e ih =>
    by_cases h0 : p.1 = k
    · simp only [envDel?, h0, if_pos rfl] at hd
      obtain rfl := Option.some.inj hd
      exact List.sublist_cons_self p e
    · simp only [envDel?, if_neg h0] at hd
      cases hdd : envDel? e k with
      | none => rw [hdd] at hd; simp at hd
      | some e1 =>
        rw [hdd] at hd
        simp only [Option.map_some'] at hd
        obtain rfl := Option.some.inj hd
        exact List.Sublist.cons₂ p (ih e1 hdd)

theorem envWF_envDel? (e e' : Env) (k : String) (hd : envDel? e k = some e')
    (h : EnvWF e) : EnvWF e' :=
  List.Nodup.sublist (List.Sublist.map Prod.fst (sublist_envDel? e e' k hd)) h

theorem envGet_envDel?_self (e e' : Env) (k : String)
    (hd : envDel? e k = some e') (h : EnvWF e) : envGet e' k = none := by
  induction e generalizing e' with
  | nil => simp [envDel?] at hd
  | cons p e ih =>
    obtain ⟨k0, w⟩ := p
    unfold EnvWF at h
    simp only [List.map_cons, List.nodup_cons] at h
    by_cases h0 : k0 = k
    · subst h0
      simp only [envDel?, if_pos rfl] at hd
      obtain rfl := Option.some.inj hd
      exact (envGet_eq_none_iff _ k0).2 h.1
    · simp only [envDel?, if_neg h0] at hd
      cases hdd : envDel? e k with
      | none => rw [hdd] at hd; simp at hd
      | some e1 =>
        rw [hdd] at hd
        simp only [Option.map_some'] at hd
        obtain rfl := Option.some.inj hd
        rw [envGet, if_neg h0]
        exact ih e1 hdd h.2

/-- Master environment invariant of `Runtime.eval`: evaluation preserves
dict well-formedness, preserves every observable binding (in the sense of
`env.get`, which conflates absence with a `None` binding), and never
introduces an explicit `None` binding at a name that did not carry one. -/
theorem eval_env_spec (n : ZNode) : ∀ e : Env, EnvWF e →
    EnvWF (eval n e).2 ∧
    (∀ k, envGetD (eval n e).2 k = envGetD e k) ∧
    (∀ k, envGet e k ≠ some .vnone → envGet (eval n e).2 k ≠ some .vnone) := by
  induction n with
  | INT v =>
    intro e hwf
    exact ⟨hwf, fun _ => rfl, fun _ h => h⟩
  | VAR s =>
    intro e hwf
    have hsnd : (eval (.VAR s) e).2 = e := by
      rw [eval]
      cases envGet e s <;> rfl
    rw [hsnd]
    exact ⟨hwf, fun _ => rfl, fun _ h => h⟩
  | ADD a b iha ihb =>
    intro e hwf
    rcases hva : eval a e with ⟨ra, e1⟩
    obtain ⟨ha1, ha2, ha3⟩ := iha e hwf
    rw [hva] at ha1 ha2 ha3
    cases ra with
    | error er =>
      simp only [eval, hva]
      exact ⟨ha1, ha2, ha3⟩
    | ok va =>
      rcases hvb : eval b e1 with ⟨rb, e2⟩
      obtain ⟨hb1, hb2, hb3⟩ := ihb e1 ha1
      rw [hvb] at hb1 hb2 hb3
      cases rb with
      | error er =>
        simp only [eval, hva, hvb]
        exact ⟨hb1, fun k => (hb2 k).trans (ha2 k), fun k h => hb3 k (ha3 k h)⟩
      | ok vb =>
        simp only [eval, hva, hvb]
        exact ⟨hb1, fun k => (hb2 k).trans (ha2 k), fun k h => hb3 k (ha3 k h)⟩
  | MUL a b iha ihb =>
    intro e hwf
    rcases hva : eval a e with ⟨ra, e1⟩
    obtain ⟨ha1, ha2, ha3⟩ := iha e hwf
    rw [hva] at ha1 ha2 ha3
    cases ra with
    | error er =>
      simp only [eval, hva]
      exact ⟨ha1, ha2, ha3⟩
    | ok va =>
      rcases hvb : eval b e1 with ⟨rb, e2⟩
      obtain ⟨hb1, hb2, hb3⟩ := ihb e1 ha1
      rw [hvb] at hb1 hb2 hb3
      cases rb with
      | error er =>
        simp only [eval, hva, hvb]
        exact ⟨hb1, fun k => (hb2 k).trans (ha2 k), fun k h => hb3 k (ha3 k h)⟩
      | ok vb =>
        simp only [eval, hva, hvb]
        exact ⟨hb1, fun k => (hb2 k).trans (ha2 k), fun k h => hb3 k (ha3 k h)⟩
  | APPLY f a ihf iha =>
    intro e hwf
    rcases hvf : eval f e with ⟨rf, e1⟩
    obtain ⟨hf1, hf2, hf3⟩ := ihf e hwf
    rw [hvf] at hf1 hf2 hf3
    cases rf with
    | error er =>
      simp only [eval, hvf]
      exact ⟨hf1, hf2, hf3⟩
    | ok vf =>
      rcases hva : eval a e1 with ⟨ra, e2⟩
      obtain ⟨ha1, ha2, ha3⟩ := iha e1 hf1
      rw [hva] at ha1 ha2 ha3
      cases ra with
      | error er =>
        simp only [eval, hvf, hva]
        exact ⟨ha1, fun k => (ha2 k).trans (hf2 k), fun k h => ha3 k (hf3 k h)⟩
      | ok va =>
        simp only [eval, hvf, hva]
        exact ⟨ha1, fun k => (ha2 k).trans (hf2 k), fun k h => ha3 k (hf3 k h)⟩
  | LET nm v b ihv ihb =>
    intro e hwf
    rcases hvv : eval v e with ⟨rv, e1⟩
    obtain ⟨hv1, hv2, hv3⟩ := ihv e hwf
    rw [hvv] at hv1 hv2 hv3
    cases rv with
    | error er =>
      simp only [eval, hvv]
      exact ⟨hv1, hv2, hv3⟩
    | ok vv =>
      have hwf2 : EnvWF (envSet e1 nm vv) := envWF_envSet e1 nm vv hv1
      rcases hvb : eval b (envSet e1 nm vv) with ⟨rb, e3⟩
      obtain ⟨hb1, hb2, hb3⟩ := ihb (envSet e1 nm vv) hwf2
      rw [hvb] at hb1 hb2 hb3
      simp only [eval, hvv, hvb]
      by_cases hold : (envGet e1 nm).getD Value.vnone = Value.vnone
      · rw [if_pos hold]
        cases hdel : envDel? e3 nm with
        | some e4 =>
          simp only []
          refine ⟨envWF_envDel? e3 e4 nm hdel hb1, fun k => ?_, fun k h => ?_⟩
          · by_cases hk : k = nm
            · subst hk
              have h5 : envGetD e k = Value.vnone := by
                rw [← hv2 k]
                exact hold
              rw [h5]
              unfold envGetD
              rw [envGet_envDel?_self e3 e4 k hdel hb1]
              rfl
            · unfold envGetD
              rw [envGet_envDel?_ne e3 e4 nm k hdel hk]
              have h6 := hb2 k
              unfold envGetD at h6
              rw [envGet_envSet_ne e1 nm k vv hk] at h6
              rw [h6]
              exact hv2 k
          · by_cases hk : k = nm
            · subst hk
              rw [envGet_envDel?_self e3 e4 k hdel hb1]
              simp
            · rw [envGet_envDel?_ne e3 e4 nm k hdel hk]
              refine hb3 k ?_
              rw [envGet_envSet_ne e1 nm k vv hk]
              exact hv3 k h
        | none =>
          simp only []
          rw [envDel?_eq_none] at hdel
          refine ⟨hb1, fun k => ?_, fun k h => ?_⟩
          · by_cases hk : k = nm
            · subst hk
              have h5 : envGetD e k = Value.vnone := by
                rw [← hv2 k]
                exact hold
              rw [h5]
              unfold envGetD
              rw [hdel]
              rfl
            · have h6 := hb2 k
              unfold envGetD at h6 ⊢
              rw [envGet_envSet_ne e1 nm k vv hk] at h6
              rw [h6]
              exact hv2 k
          · by_cases hk : k = nm
            · subst hk
              rw [hdel]
              simp
            · refine hb3 k ?_
              rw [envGet_envSet_ne e1 nm k vv hk]
              exact hv3 k h
      · rw [if_neg hold]
        refine ⟨envWF_envSet e3 nm _ hb1, fun k => ?_, fun k h => ?_⟩
        · by_cases hk : k = nm
          · subst hk
            unfold envGetD
            rw [envGet_envSet_self]
            exact hv2 k
          · unfold envGetD
            rw [envGet_envSet_ne e3 nm k _ hk]
            have h6 := hb2 k
            unfold envGetD at h6
            rw [envGet_envSet_ne e1 nm k vv hk] at h6
            rw [h6]
            exact hv2 k
        · by_cases hk : k = nm
          · subst hk
            rw [envGet_envSet_self]
            intro hc
            exact hold (Option.some.inj hc)
          · rw [envGet_envSet_ne e3 nm k _ hk]
            refine hb3 k ?_
            rw [envGet_envSet_ne e1 nm k vv hk]
            exact hv3 k h

theorem envGet_mem (e : Env) (k : String) (w : Value) (h : envGet e k = some w) :
    (k, w) ∈ e := by
  induction e with
  | nil => simp [envGet] at h
  | cons p e ih =>
    obtain ⟨k0, w0⟩ := p
    by_cases h0 : k0 = k
    · subst h0
      rw [envGet, if_pos rfl] at h
      obtain rfl := Option.some.inj h
      exact List.mem_cons_self _ _
    · rw [envGet, if_neg h0] at h
      exact List.mem_cons_of_mem _ (ih h)

theorem envGetD_resolve (e : Env) (k : String) (w : Value)
    (h1 : envGetD e k = w) (h2 : w ≠ Value.vnone) : envGet e k = some w := by
  unfold envGetD at h1
  cases hg : envGet e k with
  | none =>
    rw [hg, Option.getD_none] at h1
    exact absurd h1.symm h2
  | some u =>
    rw [hg] at h1
    rw [Option.getD_some] at h1
    rw [h1]

theorem envGetD_none_resolve (e : Env) (k : String)
    (h1 : envGetD e k = Value.vnone) (h2 : envGet e k ≠ some Value.vnone) :
    envGet e k = none := by
  unfold envGetD at h1
  cases hg : envGet e k with
  | none => rfl
  | some u =>
    rw [hg, Option.getD_some] at h1
    subst h1
    exact absurd hg h2

/-- On a well-formed environment binding no name to `None`, evaluation
preserves every binding observably (shared workhorse behind the claims
about environment restoration). -/
theorem eval_preserves_env (n : ZNode) (e : Env) (hwf : EnvWF e)
    (hnn : NoNone e) : ∀ k, envGet ((eval n e).2) k = envGet e k := by
  obtain ⟨h1, h2, h3⟩ := eval_env_spec n e hwf
  intro k
  cases hg : envGet e k with
  | none =>
    have hne : envGet e k ≠ some Value.vnone := by
      rw [hg]
      exact nofun
    have hd : envGetD (eval n e).2 k = Value.vnone := by
      rw [h2 k]
      unfold envGetD
      rw [hg]
      rfl
    exact envGetD_none_resolve _ k hd (h3 k hne)
  | some w =>
    have hwne : w ≠ Value.vnone := hnn (k, w) (envGet_mem e k w hg)
    refine envGetD_resolve _ k w ?_ hwne
    rw [h2 k]
    unfold envGetD
    rw [hg, Option.getD_some]

/-- Claim C9: on any well-formed environment binding no name to `None`,
`Runtime.eval` leaves the environment with exactly the same names bound to
exactly the same values, whether it returns a value or raises. -/
theorem eval_env_unchanged (n : ZNode) (e : Env) (hwf : EnvWF e)
    (hnn : NoNone e) : ∀ k, envGet ((eval n e).2) k = envGet e k :=
  eval_preserves_env n e hwf hnn

/-- Claim C9 witness at a concrete environment and node. -/
theorem eval_env_unchanged_witness :
    envGet ((eval (ZNode.LET "x" (.INT 2) (.ADD (.VAR "x") (.VAR "y")))
      [("y", Value.vint 7)]).2) "y" = envGet [("y", Value.vint 7)] "y" :=
  eval_env_unchanged _ _ (by decide) (by decide) "y"

/-- Claim C4 counterexample: with `x` previously bound to `None`,
`let x -> 0 in 1` does not restore the binding; `x` is deleted instead of
being rebound to `None`. -/
theorem let_restore_counterexample :
    envGet [("x", Value.vnone)] "x" = some Value.vnone ∧
    envGet ((eval (ZNode.LET "x" (.INT 0) (.INT 1))
      [("x", Value.vnone)]).2) "x" = none := by
  constructor
  · rfl
  · rfl

/-- Claim C4 (amended): evaluating `let name -> value in body` on a
well-formed environment restores `name`'s previous binding — absent stays
absent, and a previous binding to any value other than `None` is
restored — whether the evaluation returns a value or raises; a previous
binding to `None` is conflated with absence and is not restored. -/
theorem let_restores_binding (nm : String) (v b : ZNode) (e : Env)
    (hwf : EnvWF e) :
    (envGet e nm = none → envGet ((eval (ZNode.LET nm v b) e).2) nm = none) ∧
    (∀ w, envGet e nm = some w → w ≠ Value.vnone →
      envGet ((eval (ZNode.LET nm v b) e).2) nm = some w) := by
  obtain ⟨h1, h2, h3⟩ := eval_env_spec (ZNode.LET nm v b) e hwf
  constructor
  · intro hg
    have hne : envGet e nm ≠ some Value.vnone := by
      rw [hg]
      exact nofun
    have hd : envGetD (eval (ZNode.LET nm v b) e).2 nm = Value.vnone := by
      rw [h2 nm]
      unfold envGetD
      rw [hg]
      rfl
    exact envGetD_none_resolve _ nm hd (h3 nm hne)
  · intro w hg hwne
    refine envGetD_resolve _ nm w ?_ hwne
    rw [h2 nm]
    unfold envGetD
    rw [hg, Option.getD_some]

/-- Claim C4 witness at concrete inputs: an absent name stays absent and a
non-`None` binding is restored across a `let` that shadows it. -/
theorem let_restores_binding_witness :
    envGet ((eval (ZNode.LET "x" (.INT 2) (.VAR "x"))
      [("y", Value.vint 7)]).2) "x" = none ∧
    envGet ((eval (ZNode.LET "y" (.INT 2) (.VAR "y"))
      [("y", Value.vint 7)]).2) "y" = some (Value.vint 7) :=
  ⟨(let_restores_binding "x" (.INT 2) (.VAR "x") [("y", Value.vint 7)]
      (by decide)).1 (by decide),
   (let_restores_binding "y" (.INT 2) (.VAR "y") [("y", Value.vint 7)]
      (by decide)).2 (Value.vint 7) (by decide) (by decide)⟩

/-! ## csl_kernel/asc7.py: the canonicalizer

Strings are modelled as lists of Unicode code points. -/

/-- The `_ASC7_MAP` typographic-replacement table (curly quotes, em/en
dash, no-break space, tab, carriage return, form feed). -/
def asc7Map (c : Nat) : Nat :=
  if c = 8220 then 34
  else if c = 8221 then 34
  else if c = 8216 then 39
  else if c = 8217 then 39
  else if c = 8212 then 45
  else if c = 8211 then 45
  else if c = 160 then 32
  else if c = 9 then 32
  else if c = 13 then 32
  else if c = 12 then 32
  else c

/-- `str.lower` on a code point, modelled on the ASCII range (the CSL
sources and all markers the pipeline inspects are ASCII; non-ASCII cased
letters are left unchanged by the model). -/
def pyLower (c : Nat) : Nat :=
  if 65 ≤ c ∧ c ≤ 90 then c + 32 else c

/-- Per-character canonicalization step: `_ASC7_MAP.get(ch, ch).lower()`
(the source maps first and lowercases the result). -/
def charStep (c : Nat) : Nat := pyLower (asc7Map c)

/-- Python `str.isspace` / the separator set of no-argument `str.split`. -/
def pyIsSpace (c : Nat) : Bool :=
  c = 32 || c = 9 || c = 10 || c = 11 || c = 12 || c = 13 ||
  (28 ≤ c && c ≤ 31) || c = 133 || c = 160 || c = 5760 ||
  (8192 ≤ c && c ≤ 8202) || c = 8232 || c = 8233 || c = 8239 ||
  c = 8287 || c = 12288

/-- `sep.join(parts)` for a one-character separator. -/
def joinSep (sep : Nat) : List (List Nat) → List Nat
  | [] => []
  | [w] => w
  | w :: ws => w ++ sep :: joinSep sep ws

/-- `s.split("\n")`: split at every newline, keeping empty segments. -/
def split10 : List Nat → List (List Nat)
  | [] => [[]]
  | c :: cs =>
    if c = 10 then [] :: split10 cs
    else
      match split10 cs with
      | [] => [[c]]
      | l :: ls => (c :: l) :: ls

theorem length_dropWhile_le' (p : Nat → Bool) (l : List Nat) :
    (l.dropWhile p).length ≤ l.length := by
  induction l with
  | nil => simp
  | cons c cs ih =>
    rw [List.dropWhile_cons]
    by_cases h : p c = true
    · simp only [h, if_pos]
      exact Nat.le_succ_of_le ih
    · simp [h]

/-- No-argument `str.split`: maximal runs of non-whitespace characters. -/
def splitWS : List Nat → List (List Nat)
  | [] => []
  | c :: cs =>
    if pyIsSpace c then splitWS cs
    else
      (c :: cs.takeWhile (fun d => !pyIsSpace d)) ::
        splitWS (cs.dropWhile (fun d => !pyIsSpace d))
termination_by s => s.length
decreasing_by
  · simp
  · exact Nat.lt_succ_of_le (length_dropWhile_le' _ cs)

/-- `str.strip`: drop whitespace from both ends. -/
def pyStrip (s : List Nat) : List Nat :=
  (((s.dropWhile (fun c => pyIsSpace c)).reverse.dropWhile
    (fun c => pyIsSpace c)).reverse)

/-- `" ".join(ln.strip().split())`: collapse internal whitespace runs. -/
def normLine (l : List Nat) : List Nat :=
  joinSep 32 (splitWS (pyStrip l))

/-- Keep a normalized line if it is non-empty and not a `//` comment. -/
def keepLine (l : List Nat) : Bool :=
  !l.isEmpty && !(List.isPrefixOf [47, 47] l)

/-- `asc7.canonicalize`: per-character mapping and lowering, then per-line
whitespace normalization, dropping empty and comment lines. -/
def canonicalize (s : List Nat) : List Nat :=
  joinSep 10 (((split10 (s.map charStep)).map normLine).filter keepLine)

theorem asc7Map_cases (c : Nat) :
    asc7Map c = c ∨ asc7Map c = 34 ∨ asc7Map c = 39 ∨ asc7Map c = 45 ∨
      asc7Map c = 32 := by
  unfold asc7Map
  split_ifs <;> simp

theorem asc7Map_id_small (c : Nat) (h : c < 160) (h9 : c ≠ 9) (h12 : c ≠ 12)
    (h13 : c ≠ 13) : asc7Map c = c := by
  unfold asc7Map
  split_ifs <;> omega

theorem pyLower_id (c : Nat) (h : ¬(65 ≤ c ∧ c ≤ 90)) : pyLower c = c := by
  unfold pyLower
  rw [if_neg h]

theorem charStep_idem (c : Nat) : charStep (charStep c) = charStep c := by
  rcases asc7Map_cases c with hm | hm | hm | hm | hm
  · unfold charStep
    rw [hm]
    by_cases hu : 65 ≤ c ∧ c ≤ 90
    · have hl : pyLower c = c + 32 := by
        unfold pyLower
        rw [if_pos hu]
      rw [hl, asc7Map_id_small (c + 32) (by omega) (by omega) (by omega)
        (by omega), pyLower_id (c + 32) (by omega)]
    · rw [pyLower_id c hu, hm, pyLower_id c hu]
  · unfold charStep
    rw [hm]
    decide
  · unfold charStep
    rw [hm]
    decide
  · unfold charStep
    rw [hm]
    decide
  · unfold charStep
    rw [hm]
    decide

theorem splitWS_cons (c : Nat) (cs : List Nat) :
    splitWS (c :: cs) =
      if pyIsSpace c then splitWS cs
      else
        (c :: cs.takeWhile (fun d => !pyIsSpace d)) ::
          splitWS (cs.dropWhile (fun d => !pyIsSpace d)) := by
  rw [splitWS]

theorem joinSep_cons (sep : Nat) (w : List Nat) (ws : List (List Nat))
    (h : ws ≠ []) : joinSep sep (w :: ws) = w ++ sep :: joinSep sep ws := by
  cases ws with
  | nil => exact absurd rfl h
  | cons x xs =>
    rw [joinSep]
    exact nofun

theorem mem_joinSep (sep c : Nat) (ws : List (List Nat))
    (h : c ∈ joinSep sep ws) : c = sep ∨ ∃ w ∈ ws, c ∈ w := by
  induction ws with
  | nil => simp [joinSep] at h
  | cons w ws ih =>
    cases ws with
    | nil =>
      rw [joinSep] at h
      exact Or.inr ⟨w, List.mem_cons_self w [], h⟩
    | cons x xs =>
      rw [joinSep_cons sep w (x :: xs) (by simp)] at h
      rcases List.mem_append.1 h with hw | hr
      · exact Or.inr ⟨w, List.mem_cons_self _ _, hw⟩
      · rcases List.mem_cons.1 hr with hc | hr'
        · exact Or.inl hc
        · rcases ih hr' with hc | ⟨w', hw', hc⟩
          · exact Or.inl hc
          · exact Or.inr ⟨w', List.mem_cons_of_mem _ hw', hc⟩

theorem mem_split10 (s : List Nat) (l : List Nat) (c : Nat)
    (hl : l ∈ split10 s) (hc : c ∈ l) : c ∈ s := by
  induction s generalizing l with
  | nil =>
    rw [split10] at hl
    rcases List.mem_singleton.1 hl with rfl
    simp at hc
  | cons d ds ih =>
    rw [split10] at hl
    by_cases h10 : d = 10
    · rw [if_pos h10] at hl
      rcases List.mem_cons.1 hl with rfl | hl'
      · simp at hc
      · exact List.mem_cons_of_mem _ (ih l hl' hc)
    · rw [if_neg h10] at hl
      cases hsp : split10 ds with
      | nil =>
        rw [hsp] at hl
        rcases List.mem_singleton.1 hl with rfl
        rcases List.mem_cons.1 hc with rfl | hc'
        · exact List.mem_cons_self _ _
        · simp at hc'
      | cons m ms =>
        rw [hsp] at hl
        rcases List.mem_cons.1 hl with rfl | hl'
        · rcases List.mem_cons.1 hc with rfl | hc'
          · exact List.mem_cons_self _ _
          · exact List.mem_cons_of_mem _ (ih m (by rw [hsp]; exact List.mem_cons_self _ _) hc')
        · exact List.mem_cons_of_mem _
            (ih l (by rw [hsp]; exact List.mem_cons_of_mem _ hl') hc)

theorem mem_takeWhile (p : Nat → Bool) (l : List Nat) (c : Nat)
    (h : c ∈ l.takeWhile p) : c ∈ l := by
  induction l with
  | nil => simp at h
  | cons d ds ih =>
    rw [List.takeWhile_cons] at h
    by_cases hp : p d = true
    · rw [if_pos hp] at h
      rcases List.mem_cons.1 h with rfl | h'
      · exact List.mem_cons_self _ _
      · exact List.mem_cons_of_mem _ (ih h')
    · rw [if_neg hp] at h
      simp at h

theorem mem_dropWhile (p : Nat → Bool) (l : List Nat) (c : Nat)
    (h : c ∈ l.dropWhile p) : c ∈ l := by
  induction l with
  | nil => simp at h
  | cons d ds ih =>
    rw [List.dropWhile_cons] at h
    by_cases hp : p d = true
    · rw [if_pos hp] at h
      exact List.mem_cons_of_mem _ (ih h)
    · rw [if_neg hp] at h
      exact h

theorem mem_pyStrip (s : List Nat) (c : Nat) (h : c ∈ pyStrip s) : c ∈ s := by
  unfold pyStrip at h
  have h1 := List.mem_reverse.1 h
  have h2 := mem_dropWhile _ _ _ h1
  exact mem_dropWhile _ _ _ (List.mem_reverse.1 h2)

theorem mem_splitWS (s : List Nat) (w : List Nat) (hw : w ∈ splitWS s) :
    w ≠ [] ∧ ∀ c ∈ w, pyIsSpace c = false ∧ c ∈ s := by
  induction s using splitWS.induct with
  | case1 =>
    rw [splitWS] at hw
    simp at hw
  | case2 c cs hsp ih =>
    rw [splitWS_cons, if_pos hsp] at hw
    obtain ⟨h1, h2⟩ := ih hw
    exact ⟨h1, fun d hd => ⟨(h2 d hd).1, List.mem_cons_of_mem _ (h2 d hd).2⟩⟩
  | case3 c cs hsp ih =>
    rw [splitWS_cons, if_neg hsp] at hw
    rcases List.mem_cons.1 hw with rfl | hw'
    · refine ⟨by simp, fun d hd => ?_⟩
      rcases List.mem_cons.1 hd with rfl | hd'
      · exact ⟨Bool.of_not_eq_true hsp, List.mem_cons_self _ _⟩
      · constructor
        · simpa using List.mem_takeWhile_imp hd'
        · exact List.mem_cons_of_mem _ (mem_takeWhile _ _ _ hd')
    · obtain ⟨h1, h2⟩ := ih hw'
      refine ⟨h1, fun d hd => ⟨(h2 d hd).1, ?_⟩⟩
      exact List.mem_cons_of_mem _ (mem_dropWhile _ _ _ (h2 d hd).2)

theorem splitWS_nil : splitWS [] = [] := by
  rw [splitWS]

theorem takeWhile_append_stop (p : Nat → Bool) (xs : List Nat) (y : Nat)
    (r : List Nat) (hxs : ∀ x ∈ xs, p x = true) (hy : p y = false) :
    (xs ++ y :: r).takeWhile p = xs := by
  induction xs with
  | nil =>
    simp only [List.nil_append, List.takeWhile_cons, hy]
    rfl
  | cons x xs ih =>
    simp only [List.cons_append, List.takeWhile_cons,
      hxs x (List.mem_cons_self x xs), if_pos]
    rw [ih (fun z hz => hxs z (List.mem_cons_of_mem x hz))]

theorem dropWhile_append_stop (p : Nat → Bool) (xs : List Nat) (y : Nat)
    (r : List Nat) (hxs : ∀ x ∈ xs, p x = true) (hy : p y = false) :
    (xs ++ y :: r).dropWhile p = y :: r := by
  induction xs with
  | nil =>
    simp only [List.nil_append, List.dropWhile_cons, hy]
    rfl
  | cons x xs ih =>
    simp only [List.cons_append, List.dropWhile_cons,
      hxs x (List.mem_cons_self x xs), if_pos]
    exact ih (fun z hz => hxs z (List.mem_cons_of_mem x hz))

theorem takeWhile_eq_self' (p : Nat → Bool) (l : List Nat)
    (h : ∀ x ∈ l, p x = true) : l.takeWhile p = l := by
  induction l with
  | nil => rfl
  | cons x xs ih =>
    simp only [List.takeWhile_cons, h x (List.mem_cons_self x xs), if_pos]
    rw [ih (fun z hz => h z (List.mem_cons_of_mem x hz))]

theorem dropWhile_eq_nil' (p : Nat → Bool) (l : List Nat)
    (h : ∀ x ∈ l, p x = true) : l.dropWhile p = [] := by
  induction l with
  | nil => rfl
  | cons x xs ih =>
    simp only [List.dropWhile_cons, h x (List.mem_cons_self x xs), if_pos]
    exact ih (fun z hz => h z (List.mem_cons_of_mem x hz))

theorem splitWS_single (w : List Nat) (hne : w ≠ [])
    (hw : ∀ c ∈ w, pyIsSpace c = false) : splitWS w = [w] := by
  cases w with
  | nil => exact absurd rfl hne
  | cons c cs =>
    rw [splitWS_cons, if_neg (by simp [hw c (List.mem_cons_self c cs)])]
    rw [takeWhile_eq_self' _ cs
      (fun z hz => by simp [hw z (List.mem_cons_of_mem c hz)])]
    rw [dropWhile_eq_nil' _ cs
      (fun z hz => by simp [hw z (List.mem_cons_of_mem c hz)])]
    rw [splitWS_nil]

theorem splitWS_joinSep (ws : List (List Nat))
    (h : ∀ w ∈ ws, w ≠ [] ∧ ∀ c ∈ w, pyIsSpace c = false) :
    splitWS (joinSep 32 ws) = ws := by
  induction ws with
  | nil => exact splitWS_nil
  | cons w ws ih =>
    cases ws with
    | nil =>
      show splitWS (joinSep 32 [w]) = [w]
      rw [joinSep]
      exact splitWS_single w (h w (List.mem_cons_self w [])).1
        (h w (List.mem_cons_self w [])).2
    | cons x xs =>
      rw [joinSep_cons 32 w (x :: xs) (by simp)]
      obtain ⟨hwne, hwch⟩ := h w (List.mem_cons_self w (x :: xs))
      cases w with
      | nil => exact absurd rfl hwne
      | cons c cs =>
        rw [List.cons_append, splitWS_cons,
          if_neg (by simp [hwch c (List.mem_cons_self c cs)])]
        rw [takeWhile_append_stop _ cs 32 (joinSep 32 (x :: xs))
          (fun z hz => by simp [hwch z (List.mem_cons_of_mem c hz)]) (by decide)]
        rw [dropWhile_append_stop _ cs 32 (joinSep 32 (x :: xs))
          (fun z hz => by simp [hwch z (List.mem_cons_of_mem c hz)]) (by decide)]
        rw [splitWS_cons, if_pos (by decide)]
        rw [ih (fun v hv => h v (List.mem_cons_of_mem _ hv))]

theorem joinSep_append_single (sep : Nat) (L : List (List Nat)) (y : List Nat)
    (h : L ≠ []) : joinSep sep (L ++ [y]) = joinSep sep L ++ sep :: y := by
  induction L with
  | nil => exact absurd rfl h
  | cons z L ih =>
    cases L with
    | nil =>
      show joinSep sep (z :: [y]) = joinSep sep [z] ++ sep :: y
      rw [joinSep_cons sep z [y] (by simp)]
      rfl
    | cons u us =>
      rw [List.cons_append, joinSep_cons sep z ((u :: us) ++ [y]) (by simp),
        joinSep_cons sep z (u :: us) (by simp), ih (by simp), List.append_assoc]
      rfl

theorem joinSep_reverse (sep : Nat) (ws : List (List Nat)) :
    (joinSep sep ws).reverse = joinSep sep ((ws.map List.reverse).reverse) := by
  induction ws with
  | nil => rfl
  | cons w ws ih =>
    cases ws with
    | nil =>
      show (joinSep sep [w]).reverse = joinSep sep [w.reverse]
      rw [joinSep, joinSep]
    | cons x xs =>
      rw [joinSep_cons sep w (x :: xs) (by simp), List.reverse_append,
        List.reverse_cons, List.map_cons, List.reverse_cons, ih,
        joinSep_append_single sep _ w.reverse (by simp), List.append_assoc]
      rfl

theorem joinSep_head_nospace (ws : List (List Nat)) (hne : ws ≠ [])
    (h : ∀ w ∈ ws, w ≠ [] ∧ ∀ c ∈ w, pyIsSpace c = false) :
    ∃ c t, joinSep 32 ws = c :: t ∧ pyIsSpace c = false := by
  cases ws with
  | nil => exact absurd rfl hne
  | cons w ws =>
    obtain ⟨hwne, hwch⟩ := h w (List.mem_cons_self w ws)
    cases w with
    | nil => exact absurd rfl hwne
    | cons c cs =>
      cases ws with
      | nil =>
        exact ⟨c, cs, by rw [joinSep], hwch c (List.mem_cons_self c cs)⟩
      | cons x xs =>
        refine ⟨c, cs ++ 32 :: joinSep 32 (x :: xs), ?_,
          hwch c (List.mem_cons_self c cs)⟩
        rw [joinSep_cons 32 _ (x :: xs) (by simp), List.cons_append]

theorem pyStrip_joinSep (ws : List (List Nat))
    (h : ∀ w ∈ ws, w ≠ [] ∧ ∀ c ∈ w, pyIsSpace c = false) :
    pyStrip (joinSep 32 ws) = joinSep 32 ws := by
  cases ws with
  | nil => rfl
  | cons w ws =>
    obtain ⟨c, t, hct, hcsp⟩ :=
      joinSep_head_nospace (w :: ws) (by simp) h
    have hfront : (joinSep 32 (w :: ws)).dropWhile (fun d => pyIsSpace d) =
        joinSep 32 (w :: ws) := by
      rw [hct, List.dropWhile_cons]
      simp [hcsp]
    have hjrev : (joinSep 32 (w :: ws)).reverse =
        joinSep 32 (((w :: ws).map List.reverse).reverse) :=
      joinSep_reverse 32 (w :: ws)
    have hgood : ∀ v ∈ ((w :: ws).map List.reverse).reverse,
        v ≠ [] ∧ ∀ c ∈ v, pyIsSpace c = false := by
      intro v hv
      rw [List.mem_reverse, List.mem_map] at hv
      obtain ⟨u, hu, rfl⟩ := hv
      obtain ⟨hune, huch⟩ := h u hu
      exact ⟨by simpa using hune, fun d hd => huch d (List.mem_reverse.1 hd)⟩
    have hrevne : ((w :: ws).map List.reverse).reverse ≠ [] := by simp
    obtain ⟨c', t', hct', hcsp'⟩ :=
      joinSep_head_nospace _ hrevne hgood
    have hback : (joinSep 32 (w :: ws)).reverse.dropWhile
        (fun d => pyIsSpace d) = (joinSep 32 (w :: ws)).reverse := by
      rw [hjrev, hct', List.dropWhile_cons]
      simp [hcsp']
    unfold pyStrip
    rw [hfront, hback, List.reverse_reverse]

theorem normLine_idem (l : List Nat) : normLine (normLine l) = normLine l := by
  have hgood : ∀ w ∈ splitWS (pyStrip l),
      w ≠ [] ∧ ∀ c ∈ w, pyIsSpace c = false := by
    intro w hw
    obtain ⟨h1, h2⟩ := mem_splitWS (pyStrip l) w hw
    exact ⟨h1, fun c hc => (h2 c hc).1⟩
  show joinSep 32 (splitWS (pyStrip (normLine l))) = normLine l
  unfold normLine
  rw [pyStrip_joinSep _ hgood, splitWS_joinSep _ hgood]

theorem split10_no10 (l : List Nat) (h : ∀ c ∈ l, c ≠ 10) :
    split10 l = [l] := by
  induction l with
  | nil => rfl
  | cons c cs ih =>
    rw [split10, if_neg (h c (List.mem_cons_self c cs)),
      ih (fun z hz => h z (List.mem_cons_of_mem c hz))]

theorem split10_append10 (l r : List Nat) (h : ∀ c ∈ l, c ≠ 10) :
    split10 (l ++ 10 :: r) = l :: split10 r := by
  induction l with
  | nil =>
    rw [List.nil_append, split10, if_pos rfl]
  | cons c cs ih =>
    rw [List.cons_append, split10, if_neg (h c (List.mem_cons_self c cs)),
      ih (fun z hz => h z (List.mem_cons_of_mem c hz))]

theorem split10_joinSep (L : List (List Nat)) (hne : L ≠ [])
    (h : ∀ l ∈ L, ∀ c ∈ l, c ≠ 10) : split10 (joinSep 10 L) = L := by
  induction L with
  | nil => exact absurd rfl hne
  | cons l L ih =>
    cases L with
    | nil =>
      show split10 (joinSep 10 [l]) = [l]
      rw [joinSep]
      exact split10_no10 l (h l (List.mem_cons_self l []))
    | cons m ms =>
      rw [joinSep_cons 10 l (m :: ms) (by simp),
        split10_append10 l _ (h l (List.mem_cons_self l (m :: ms))),
        ih (by simp) (fun v hv => h v (List.mem_cons_of_mem l hv))]

theorem mem_normLine (l : List Nat) (c : Nat) (hc : c ∈ normLine l) :
    c = 32 ∨ (pyIsSpace c = false ∧ c ∈ l) := by
  unfold normLine at hc
  rcases mem_joinSep 32 c _ hc with rfl | ⟨w, hw, hcw⟩
  · exact Or.inl rfl
  · obtain ⟨_, h2⟩ := mem_splitWS (pyStrip l) w hw
    exact Or.inr ⟨(h2 c hcw).1, mem_pyStrip l c (h2 c hcw).2⟩

/-- Claim C8: `canonicalize` is idempotent. -/
theorem canonicalize_idem (s : List Nat) :
    canonicalize (canonicalize s) = canonicalize s := by
  cases hk : ((split10 (s.map charStep)).map normLine).filter keepLine with
  | nil =>
    show canonicalize (joinSep 10 (((split10 (s.map charStep)).map
      normLine).filter keepLine)) = _
    rw [hk]
    show canonicalize (joinSep 10 []) =
      joinSep 10 (((split10 (s.map charStep)).map normLine).filter keepLine)
    rw [hk]
    show canonicalize [] = joinSep 10 []
    simp [canonicalize, split10, normLine, pyStrip, splitWS_nil, keepLine,
      joinSep]
  | cons k0 ks =>
    have hkne : ((split10 (s.map charStep)).map normLine).filter keepLine
        ≠ [] := by
      rw [hk]
      simp
    set kept := ((split10 (s.map charStep)).map normLine).filter keepLine
      with hkept
    have hmem_line : ∀ m ∈ kept, ∃ l ∈ split10 (s.map charStep),
        m = normLine l := by
      intro m hm
      have hm2 := List.mem_of_mem_filter hm
      rw [List.mem_map] at hm2
      obtain ⟨l, hl, rfl⟩ := hm2
      exact ⟨l, hl, rfl⟩
    have hfix : ∀ c ∈ joinSep 10 kept, charStep c = c := by
      intro c hc
      rcases mem_joinSep 10 c kept hc with rfl | ⟨m, hm, hcm⟩
      · decide
      · obtain ⟨l, hl, rfl⟩ := hmem_line m hm
        rcases mem_normLine l c hcm with rfl | ⟨_, hcl⟩
        · decide
        · have hcs : c ∈ s.map charStep := mem_split10 _ l c hl hcl
          rw [List.mem_map] at hcs
          obtain ⟨c0, _, rfl⟩ := hcs
          exact charStep_idem c0
    have hmap : (joinSep 10 kept).map charStep = joinSep 10 kept := by
      rw [List.map_congr_left hfix]
      simp
    have hno10 : ∀ m ∈ kept, ∀ c ∈ m, c ≠ 10 := by
      intro m hm c hcm
      obtain ⟨l, hl, rfl⟩ := hmem_line m hm
      rcases mem_normLine l c hcm with rfl | ⟨hsp, _⟩
      · decide
      · intro hc10
        subst hc10
        simp [pyIsSpace] at hsp
    have hsplit : split10 (joinSep 10 kept) = kept :=
      split10_joinSep kept hkne hno10
    have hnorm : kept.map normLine = kept := by
      have h1 : kept.map normLine = kept.map (fun a => a) := by
        refine List.map_congr_left ?_
        intro m hm
        obtain ⟨l, hl, rfl⟩ := hmem_line m hm
        exact normLine_idem l
      rw [h1]
      simp
    have hfilter : kept.filter keepLine = kept :=
      List.filter_eq_self.2 (fun m hm => List.of_mem_filter hm)
    show canonicalize (joinSep 10 kept) = joinSep 10 kept
    unfold canonicalize
    rw [hmap, hsplit, hnorm, hfilter]

/-! ## csl_kernel/fardbits.py: the bitmask builder -/

/-- `bitset_new(n)`: the empty bitset (the size argument is unused). -/
def bitset_new (n : Nat) : Nat := 0

/-- `bitset_set(bs, i)`. -/
def bitset_set (bs i : Nat) : Nat := bs ||| (1 <<< i)

/-- `bitset_test(bs, i)`. -/
def bitset_test (bs i : Nat) : Bool := (bs >>> i) &&& 1 == 1

/-- One leaf visit of `build_mask.rec`: test the predicate on the finished
tuple, set the current bit on success, and advance the running index. -/
def bmStep (cond : List Nat → Bool) (st : Nat × Nat) (t : List Nat) :
    Nat × Nat :=
  (if cond t then bitset_set st.1 st.2 else st.1, st.2 + 1)

/-- The recursive digit assignment `rec(d)` of `build_mask`, with the
already-assigned coordinate prefix passed explicitly and the mutable
`(bs, idx)` pair threaded as state; the first argument counts the
remaining dimensions (`dim - d`). -/
def bmRec (cond : List Nat → Bool) (p : Nat) :
    Nat → List Nat → Nat × Nat → Nat × Nat
  | 0, pre, st => bmStep cond st pre
  | d + 1, pre, st =>
    (List.range p).foldl (fun st' v => bmRec cond p d (pre ++ [v]) st') st

/-- `fardbits.build_mask`. -/
def build_mask (dim p : Nat) (cond : List Nat → Bool) : Nat :=
  (bmRec cond p dim [] (bitset_new (p ^ dim), 0)).1

/-- All `dim`-length coordinate tuples over `[0, p)` in lexicographic
(odometer) order: the enumeration order of `build_mask`. -/
def allTuples (p : Nat) : Nat → List (List Nat)
  | 0 => [[]]
  | d + 1 =>
    ((List.range p).map (fun v => (allTuples p d).map (fun t => v :: t))).flatten

/-! ## csl_kernel/parser.py: data model (the step-classification loop is
modelled below; the two header lines are consumed by regular-expression
code outside the scope of the claims under verification) -/

/-- `PsiDecl{p, dim}` (both parsed from decimal digit strings). -/
structure PsiDecl where
  p : Nat
  dim : Nat
deriving DecidableEq, Repr

/-- `ValDecl("x_eq_const", (axis_idx, cval))`: `axis` is `k - 1` for the
matched `x<k>` and may be `-1` (Python negative indexing) when `k = 0`. -/
structure ValDecl where
  axis : Int
  cval : Int
deriving DecidableEq, Repr

/-- A classified step; `goal` carries the fixed thresholds
`(0.01, 0.99)` in its `args`, which no downstream consumer reads. -/
inductive Step where
  | grad
  | project
  | goal
deriving DecidableEq, Repr

/-- `Program{psi, val, steps}`. -/
structure Program where
  psi : PsiDecl
  val : ValDecl
  steps : List Step
deriving DecidableEq, Repr

/-! ## csl_kernel/compiler.py -/

def OP_INIT : Nat := 1
def OP_SEED : Nat := 2
def OP_VMASK : Nat := 3
def OP_GRAD : Nat := 4
def OP_PROJ : Nat := 5
def OP_METRICS : Nat := 6
def OP_HALT : Nat := 7

/-- `ir.Instr`: opcode, three float operands (exact-rational model) and one
integer operand. -/
structure Instr where
  op : Nat
  a : ℚ
  b : ℚ
  c : ℚ
  i : Int
deriving DecidableEq, Repr

/-- Python sequence indexing `x[i]` including negative indices; `none`
models `IndexError` (never reached by the claims under verification). -/
def pyIndex (x : List Nat) (i : Int) : Option Nat :=
  if 0 ≤ i then x.get? i.toNat
  else if (-i).toNat ≤ x.length then x.get? (x.length - (-i).toNat)
  else none

/-- The compiler's validator predicate `lambda x: x[axis] == cval`. -/
def valCond (axis cval : Int) (x : List Nat) : Bool :=
  match pyIndex x axis with
  | some d => (d : Int) == cval
  | none => false

/-- The per-step emission of `compile_to_ir`'s loop. -/
def stepInstrs : Step → List Instr
  | .grad => [⟨OP_GRAD, 1, 1, Rat.divInt 1 10, 0⟩]
  | .project => [⟨OP_PROJ, 0, 0, 0, 0⟩]
  | .goal => [⟨OP_METRICS, 0, 0, 0, 0⟩, ⟨OP_HALT, 0, 0, 0, 0⟩]

/-- `compiler.compile_to_ir`. -/
def compile_to_ir (prog : Program) : List Instr :=
  [⟨OP_INIT, 0, 0, 0, (prog.psi.p : Int)⟩,
   ⟨OP_INIT, 0, (prog.psi.dim : ℚ), 0, 0⟩,
   ⟨OP_SEED, 0, 0, 0, 0⟩,
   ⟨OP_VMASK, 0, 0, 0,
     (build_mask prog.psi.dim prog.psi.p
       (valCond prog.val.axis prog.val.cval) : Int)⟩] ++
  (prog.steps.map stepInstrs).flatten

theorem testBit_bitset_set (bs i k : Nat) :
    (bitset_set bs i).testBit k = (bs.testBit k || decide (i = k)) := by
  unfold bitset_set
  rw [Nat.shiftLeft_eq, one_mul, Nat.testBit_or, Nat.testBit_two_pow]

theorem bmRec_eq_foldl (cond : List Nat → Bool) (p : Nat) (d : Nat) :
    ∀ (pre : List Nat) (st : Nat × Nat),
      bmRec cond p d pre st =
        (allTuples p d).foldl (fun st' t => bmStep cond st' (pre ++ t)) st := by
  induction d with
  | zero =>
    intro pre st
    rw [bmRec, allTuples]
    simp only [List.foldl_cons, List.foldl_nil, List.append_nil]
  | succ d ih =>
    intro pre st
    rw [bmRec, allTuples]
    rw [List.foldl_flatten, List.foldl_map]
    refine List.foldl_ext _ _ st ?_
    intro acc v _
    rw [ih (pre ++ [v]) acc, List.foldl_map]
    refine List.foldl_ext _ _ acc ?_
    intro acc' t _
    rw [List.append_assoc, List.singleton_append]

theorem foldl_bmStep_idx (cond : List Nat → Bool) (ts : List (List Nat)) :
    ∀ bs idx, (ts.foldl (bmStep cond) (bs, idx)).2 = idx + ts.length := by
  induction ts with
  | nil => intro bs idx; simp
  | cons t ts ih =>
    intro bs idx
    rw [List.foldl_cons]
    have hstep : bmStep cond (bs, idx) t =
        ((if cond t = true then bitset_set bs idx else bs), idx + 1) := rfl
    rw [hstep, ih]
    simp only [List.length_cons]
    omega

theorem foldl_bmStep_testBit (cond : List Nat → Bool) (ts : List (List Nat)) :
    ∀ bs idx k,
      (ts.foldl (bmStep cond) (bs, idx)).1.testBit k =
        (bs.testBit k ||
          (decide (idx ≤ k ∧ k < idx + ts.length) &&
            cond (ts.getD (k - idx) []))) := by
  induction ts with
  | nil =>
    intro bs idx k
    simp only [List.foldl_nil, List.length_nil, Nat.add_zero]
    have hfalse : ¬(idx ≤ k ∧ k < idx) := by omega
    simp [hfalse]
  | cons t ts ih =>
    intro bs idx k
    rw [List.foldl_cons]
    have hstep : bmStep cond (bs, idx) t =
        ((if cond t = true then bitset_set bs idx else bs), idx + 1) := rfl
    rw [hstep, ih]
    by_cases hk : k = idx
    · subst hk
      have h1 : ¬(k + 1 ≤ k ∧ k < k + 1 + ts.length) := by omega
      have h2 : decide (k ≤ k ∧ k < k + (t :: ts).length) = true := by
        rw [decide_eq_true_eq]
        simp only [List.length_cons]
        omega
      rw [decide_eq_false h1, Bool.false_and, Bool.or_false, h2, Bool.true_and,
        Nat.sub_self, List.getD_cons_zero]
      by_cases hc : cond t = true
      · rw [if_pos hc, testBit_bitset_set, hc]
        simp
      · rw [if_neg hc, Bool.eq_false_iff.2 hc, Bool.or_false]
    · have hbs : (if cond t = true then bitset_set bs idx else bs).testBit k =
          bs.testBit k := by
        by_cases hc : cond t = true
        · rw [if_pos hc, testBit_bitset_set,
            decide_eq_false (fun hh => hk hh.symm), Bool.or_false]
        · rw [if_neg hc]
      rw [hbs]
      have hdec : decide (idx + 1 ≤ k ∧ k < idx + 1 + ts.length) =
          decide (idx ≤ k ∧ k < idx + (t :: ts).length) := by
        rw [decide_eq_decide]
        simp only [List.length_cons]
        omega
      by_cases hin : idx + 1 ≤ k ∧ k < idx + 1 + ts.length
      · have hgd : (t :: ts).getD (k - idx) [] = ts.getD (k - (idx + 1)) [] := by
          have heq : k - idx = (k - (idx + 1)) + 1 := by omega
          rw [heq]
          rfl
        rw [hdec, hgd]
      · have hin2 : ¬(idx ≤ k ∧ k < idx + (t :: ts).length) := by
          simp only [List.length_cons]
          omega
        rw [decide_eq_false hin, decide_eq_false hin2, Bool.false_and,
          Bool.false_and]

theorem length_allTuples (p d : Nat) : (allTuples p d).length = p ^ d := by
  induction d with
  | zero => rfl
  | succ d ih =>
    rw [allTuples, List.length_flatten, List.map_map]
    have h1 : (List.map (List.length ∘ fun v =>
        (allTuples p d).map (fun t => v :: t)) (List.range p)) =
        List.map (fun _ => p ^ d) (List.range p) := by
      refine List.map_congr_left ?_
      intro v _
      simp [ih]
    rw [h1, List.map_const', List.sum_replicate, List.length_range,
      smul_eq_mul, pow_succ, Nat.mul_comm]

theorem mem_allTuples (p d : Nat) (t : List Nat) :
    t ∈ allTuples p d ↔ t.length = d ∧ ∀ c ∈ t, c < p := by
  induction d generalizing t with
  | zero =>
    rw [allTuples]
    cases t <;> simp
  | succ d ih =>
    rw [allTuples]
    simp only [List.mem_flatten, List.mem_map, List.mem_range]
    constructor
    · rintro ⟨blk, ⟨v, hv, rfl⟩, hmem⟩
      rw [List.mem_map] at hmem
      obtain ⟨t', ht', rfl⟩ := hmem
      obtain ⟨hl, hc⟩ := (ih t').1 ht'
      refine ⟨by simp [hl], ?_⟩
      intro c hc'
      rcases List.mem_cons.1 hc' with rfl | hc''
      · exact hv
      · exact hc c hc''
    · rintro ⟨hl, hc⟩
      cases t with
      | nil => simp at hl
      | cons v t' =>
        refine ⟨(allTuples p d).map (fun u => v :: u),
          ⟨v, hc v (List.mem_cons_self v t'), rfl⟩, ?_⟩
        rw [List.mem_map]
        refine ⟨t', (ih t').2 ⟨by simpa using hl,
          fun c hcc => hc c (List.mem_cons_of_mem v hcc)⟩, rfl⟩

theorem allTuples_pairwise_lex (p d : Nat) :
    (allTuples p d).Pairwise (List.Lex (· < ·)) := by
  induction d with
  | zero => simp [allTuples]
  | succ d ih =>
    rw [allTuples, List.pairwise_flatten]
    constructor
    · intro blk hblk
      rw [List.mem_map] at hblk
      obtain ⟨v, _, rfl⟩ := hblk
      exact List.Pairwise.map _ (fun _ _ h => List.Lex.cons h) ih
    · rw [List.pairwise_map]
      refine List.Pairwise.imp ?_ (List.pairwise_lt_range p)
      intro v v' hvv x hx y hy
      rw [List.mem_map] at hx hy
      obtain ⟨tx, _, rfl⟩ := hx
      obtain ⟨ty, _, rfl⟩ := hy
      exact List.Lex.rel hvv

/-- The specified behaviour of `build_mask`: the lexicographic tuple list
has exactly `p ^ dim` entries, contains every `dim`-digit tuple over
`[0, p)` exactly once in strictly increasing lexicographic order, the
builder's running index finishes at `p ^ dim`, and bit `i` of the result
is set iff the predicate holds of the tuple at enumeration index `i`. -/
def BuildMaskSpec (dim p : Nat) (cond : List Nat → Bool) : Prop :=
  (allTuples p dim).length = p ^ dim ∧
  (∀ t, t ∈ allTuples p dim ↔ t.length = dim ∧ ∀ c ∈ t, c < p) ∧
  (allTuples p dim).Pairwise (List.Lex (· < ·)) ∧
  (bmRec cond p dim [] (bitset_new (p ^ dim), 0)).2 = p ^ dim ∧
  (∀ i, (build_mask dim p cond).testBit i =
    (decide (i < p ^ dim) && cond ((allTuples p dim).getD i [])))

/-- The §8 example program: `psi :: f3^3`, validator `x1 = 0`, steps
`grad`, `project`, `goal`. -/
def exampleProg : Program :=
  ⟨⟨3, 3⟩, ⟨0, 0⟩, [.grad, .project, .goal]⟩

/-- Claim C6: for `p ≥ 2`, `dim ≥ 1`, `build_mask` enumerates all
`p ^ dim` tuples exactly once in lexicographic order with sequential
indices, and bit `i` of the result is set iff the predicate holds of the
tuple at index `i`; compiling the validator `x1 = 0` over `f3^3` yields a
`VMASK` whose set bits are exactly the 9 of 27 indices whose tuple has
first coordinate 0. -/
theorem build_mask_spec (dim p : Nat) (cond : List Nat → Bool)
    (hp : 2 ≤ p) (hdim : 1 ≤ dim) :
    BuildMaskSpec dim p cond ∧
    ((compile_to_ir exampleProg).getD 3 ⟨0, 0, 0, 0, 0⟩).i = 511 ∧
    (∀ i < 27,
      ((compile_to_ir exampleProg).getD 3 ⟨0, 0, 0, 0, 0⟩).i.toNat.testBit i =
        decide (((allTuples 3 3).getD i []).getD 0 0 = 0)) := by
  refine ⟨⟨length_allTuples p dim, mem_allTuples p dim,
    allTuples_pairwise_lex p dim, ?_, ?_⟩, by decide, by decide⟩
  · rw [bmRec_eq_foldl]
    have h1 : (allTuples p dim).foldl
        (fun st' t => bmStep cond st' ([] ++ t)) (bitset_new (p ^ dim), 0) =
        (allTuples p dim).foldl (bmStep cond) (bitset_new (p ^ dim), 0) := by
      refine List.foldl_ext _ _ _ ?_
      intro a t _
      rw [List.nil_append]
    rw [h1, foldl_bmStep_idx, length_allTuples, Nat.zero_add]
  · intro i
    unfold build_mask
    rw [bmRec_eq_foldl]
    have h1 : (allTuples p dim).foldl
        (fun st' t => bmStep cond st' ([] ++ t)) (bitset_new (p ^ dim), 0) =
        (allTuples p dim).foldl (bmStep cond) (bitset_new (p ^ dim), 0) := by
      refine List.foldl_ext _ _ _ ?_
      intro a t _
      rw [List.nil_append]
    rw [h1, foldl_bmStep_testBit, length_allTuples]
    have hz : (bitset_new (p ^ dim)).testBit i = false := by
      unfold bitset_new
      exact Nat.zero_testBit i
    rw [hz, Bool.false_or, Nat.sub_zero]
    have hiff : (0 ≤ i ∧ i < 0 + p ^ dim) ↔ i < p ^ dim := by omega
    rw [decide_eq_decide.2 hiff]

/-- Claim C6 witness at `p = 2`, `dim = 1` with the first-digit-zero
predicate. -/
theorem build_mask_spec_witness :
    BuildMaskSpec 1 2 (fun t => t.getD 0 0 == 0) ∧
    ((compile_to_ir exampleProg).getD 3 ⟨0, 0, 0, 0, 0⟩).i = 511 ∧
    (∀ i < 27,
      ((compile_to_ir exampleProg).getD 3 ⟨0, 0, 0, 0, 0⟩).i.toNat.testBit i =
        decide (((allTuples 3 3).getD i []).getD 0 0 = 0)) :=
  build_mask_spec 1 2 (fun t => t.getD 0 0 == 0) (by decide) (by decide)

/-! ## build/lib/csl_kernel/asm.py: the assembler -/

/-- Decimal digits with structural fuel (so that the kernel can evaluate
concrete listings); the fuel `n + 1` always suffices. -/
def natDigitsAux : Nat → Nat → List Char
  | 0, _ => []
  | fuel + 1, n =>
    if n < 10 then [Char.ofNat (48 + n)]
    else natDigitsAux fuel (n / 10) ++ [Char.ofNat (48 + n % 10)]

/-- `str(n)` for a non-negative integer. -/
def natStr (n : Nat) : String := String.mk (natDigitsAux (n + 1) n)

/-- `str(i)` / `f"{i}"` for a Python integer. -/
def intStr (i : Int) : String :=
  (if i < 0 then "-" else "") ++ natStr i.natAbs

/-- `f"{k:02d}"`: zero-pad to (at least) two digits. -/
def pad2 (k : Nat) : String :=
  if k < 10 then "0" ++ natStr k else natStr k

/-- One lowercase hexadecimal digit. -/
def hexDigit (n : Nat) : Char :=
  Char.ofNat (if n < 10 then 48 + n else 87 + n)

/-- The hexadecimal digits of `n`, most significant first, no leading
zeros (`hex(0)` is `"0x0"`); structural fuel for kernel evaluation. -/
def hexDigitsAux : Nat → Nat → List Char
  | 0, _ => []
  | fuel + 1, n =>
    if n < 16 then [hexDigit n]
    else hexDigitsAux fuel (n / 16) ++ [hexDigit (n % 16)]

def hexDigits (n : Nat) : List Char := hexDigitsAux (n + 1) n

/-- Python `hex(i)`. -/
def pyHex (i : Int) : String :=
  (if i < 0 then "-0x" else "0x") ++ String.mk (hexDigits i.natAbs)

/-- String slice `s[:n]`. -/
def strTake (n : Nat) (s : String) : String :=
  String.mk (s.toList.take n)

/-- Binary length with structural fuel. -/
def bitLenAux : Nat → Nat → Nat
  | 0, _ => 0
  | fuel + 1, n => if n = 0 then 0 else bitLenAux fuel (n / 2) + 1

/-- Python `int.bit_length`. -/
def pyBitLength (i : Int) : Nat := bitLenAux (i.natAbs + 1) i.natAbs

/-- Python `int(x)` on a float: truncation toward zero. -/
def pyTrunc (q : ℚ) : Int :=
  if q < 0 then -((q.num.natAbs / q.den : Nat) : Int)
  else ((q.num.natAbs / q.den : Nat) : Int)

/-- `repr` of a Python float whose value has a terminating decimal
expansion (every float the compiler emits does; the shortest-round-trip
repr of such a double prints exactly these digits). -/
def pyFloatRepr (q : ℚ) : String :=
  match (List.range 65).find? (fun k => q.den ∣ 10 ^ k) with
  | some k =>
    if k = 0 then intStr q.num ++ ".0"
    else
      let m := q.num.natAbs * (10 ^ k / q.den)
      let ds := natStr (m % 10 ^ k)
      (if q.num < 0 then "-" else "") ++ natStr (m / 10 ^ k) ++ "." ++
        String.mk (List.replicate (k - ds.length) '0') ++ ds
  | none => "<float>"

/-- The mnemonic table of the final `to_assembly` branch. -/
def mnemonic (op : Nat) : String :=
  if op = OP_SEED then "SEED"
  else if op = OP_PROJ then "PROJ"
  else if op = OP_METRICS then "METRICS"
  else if op = OP_HALT then "HALT"
  else "OP"

/-- One entry of `to_assembly`'s listing. -/
def asmLine (k : Nat) (ins : Instr) : String :=
  if ins.op = OP_INIT ∧ 0 < ins.i then
    pad2 k ++ ": INIT p=" ++ intStr ins.i
  else if ins.op = OP_INIT ∧ 0 < ins.b then
    pad2 k ++ ": INIT dim=" ++ intStr (pyTrunc ins.b)
  else if ins.op = OP_VMASK then
    pad2 k ++ ": VMASK nbits=" ++ natStr (pyBitLength ins.i) ++
      " hex=" ++ strTake 18 (pyHex ins.i) ++ "..."
  else if ins.op = OP_GRAD then
    pad2 k ++ ": GRAD eta=" ++ pyFloatRepr ins.c
  else
    pad2 k ++ ": " ++ mnemonic ins.op

/-- `asm.to_assembly`: the source joins the entries with the two-character
literal `\n` (the file contains an escaped `"\\n"`), not with a newline. -/
def to_assembly (bc : List Instr) : String :=
  String.intercalate "\\n" (bc.enum.map (fun p => asmLine p.1 p.2))

/-- The `w` little-endian bytes of `n`. -/
def leBytes (w n : Nat) : List Nat :=
  (List.range w).map (fun j => n / 256 ^ j % 256)

/-- Round a non-negative rational to the nearest integer, ties to even. -/
def rne (x : ℚ) : Nat :=
  (if x - x.floor < 1 / 2 then x.floor
   else if 1 / 2 < x - x.floor then x.floor + 1
   else if x.floor % 2 = 0 then x.floor
   else x.floor + 1).toNat

/-- The IEEE-754 binary32 bit pattern of the exact value `q`
(round-to-nearest-even), modelling `struct.pack('<f', x)`'s conversion. -/
def f32bits (q : ℚ) : Nat :=
  if q = 0 then 0
  else
    let s : Nat := if q < 0 then 2 ^ 31 else 0
    let m : ℚ := |q|
    let e : Int := Int.log 2 m
    if 127 < e then s + 255 * 2 ^ 23
    else if e < -126 then s + rne (m * 2 ^ (149 : Nat))
    else
      let mant : Nat := rne (m * (2 : ℚ) ^ (23 - e))
      if mant = 2 ^ 24 ∧ e = 127 then s + 255 * 2 ^ 23
      else s + (e + 127).toNat * 2 ^ 23 + (mant - 2 ^ 23)

/-- `struct.pack('<BfffQ', op, a, b, c, i & (2^64 - 1))`: 21 bytes. -/
def structPackBfffQ (ins : Instr) : List Nat :=
  [ins.op % 256] ++ leBytes 4 (f32bits ins.a) ++ leBytes 4 (f32bits ins.b) ++
    leBytes 4 (f32bits ins.c) ++ leBytes 8 ((ins.i % (2 ^ 64 : Int)).toNat)

/-- The two lowercase hex characters of one byte. -/
def byteHexChars (b : Nat) : List Char :=
  [hexDigit (b / 16), hexDigit (b % 16)]

/-- `binascii.hexlify(..).decode()` as a character list. -/
def hexChars (bs : List Nat) : List Char :=
  (bs.map byteHexChars).flatten

/-- `asm.to_bytes`: per-instruction hex chunks joined with no separator. -/
def to_bytes (bc : List Instr) : String :=
  String.mk ((bc.map (fun ins => hexChars (structPackBfffQ ins))).flatten)

/-- Claim C3 (code bug): the §8 example compiles to 8 instructions and
each listing entry is index-prefixed, but `to_assembly` joins the entries
with the two-character literal `\n` (the source reads `"\\n".join(out)`),
so the text contains no newline at all — a single line with 7 literal
backslashes — instead of the specified 8 lines.  The sibling driver
`csl_with_cc.py` works around this with `asm.replace("\\n", "\n")`. -/
theorem to_assembly_backslash_bug :
    (compile_to_ir exampleProg).length = 8 ∧
    (to_assembly (compile_to_ir exampleProg)).toList.count '\n' = 0 ∧
    (to_assembly (compile_to_ir exampleProg)).toList.count '\\' = 7 ∧
    to_assembly (compile_to_ir exampleProg) =
      "00: INIT p=3\\n01: INIT dim=3\\n02: SEED\\n" ++
      "03: VMASK nbits=9 hex=0x1ff...\\n04: GRAD eta=0.1\\n" ++
      "05: PROJ\\n06: METRICS\\n07: HALT" := by
  refine ⟨by decide, by decide, by decide, ?_⟩
  decide

/-- Claim C1 counterexample: a single instruction serializes to 42 hex
characters (a 21-byte record), not the 32 hex characters a 16-byte record
would give. -/
theorem to_bytes_record_length_counterexample :
    (to_bytes [⟨OP_HALT, 0, 0, 0, 0⟩]).length = 42 ∧ (42 : Nat) ≠ 2 * 16 := by
  constructor
  · decide
  · decide

/-- Modelled from the amended claim's words: a fixed 21-byte little-endian
record per instruction — a 1-byte opcode, the three numeric operands as
IEEE-754 single-precision floats in declared order, then the integer
operand masked to 64 bits as an unsigned 64-bit little-endian integer. -/
def specRecord (ins : Instr) : List Nat :=
  [ins.op % 256] ++ leBytes 4 (f32bits ins.a) ++ leBytes 4 (f32bits ins.b) ++
    leBytes 4 (f32bits ins.c) ++ leBytes 8 ((ins.i % (2 ^ 64 : Int)).toNat)

theorem hexChars_append (xs ys : List Nat) :
    hexChars (xs ++ ys) = hexChars xs ++ hexChars ys := by
  unfold hexChars
  rw [List.map_append, List.flatten_append]

/-- Claim C1 (amended): the binary form is the hex encoding, with no
separators, of the concatenation of one fixed 21-byte little-endian
record per instruction — 1-byte opcode, the three numeric operands as
single-precision floats in declared order, and the integer operand as an
unsigned 64-bit integer masked to 64 bits. -/
theorem to_bytes_spec (bc : List Instr) :
    to_bytes bc = String.mk (hexChars ((bc.map specRecord).flatten)) ∧
    (∀ ins : Instr, (specRecord ins).length = 21) ∧
    (to_bytes bc).length = 42 * bc.length := by
  have hlen : ∀ ins : Instr, (specRecord ins).length = 21 := by
    intro ins
    unfold specRecord leBytes
    simp
  have hrec : ∀ ins : Instr, structPackBfffQ ins = specRecord ins :=
    fun _ => rfl
  refine ⟨?_, hlen, ?_⟩
  · unfold to_bytes
    congr 1
    induction bc with
    | nil => rfl
    | cons ins bc ih =>
      rw [List.map_cons, List.map_cons, List.flatten_cons, List.flatten_cons,
        hexChars_append, ih, hrec]
  · unfold to_bytes
    show ((bc.map (fun ins => hexChars (structPackBfffQ ins))).flatten).length =
      42 * bc.length
    induction bc with
    | nil => rfl
    | cons ins bc ih =>
      rw [List.map_cons, List.flatten_cons, List.length_append, ih]
      have h1 : (hexChars (structPackBfffQ ins)).length = 42 := by
        have h2 : structPackBfffQ ins = specRecord ins := rfl
        rw [h2]
        unfold hexChars
        rw [List.length_flatten, List.map_map]
        have h3 : List.map (List.length ∘ byteHexChars) (specRecord ins) =
            List.map (fun _ => 2) (specRecord ins) := by
          refine List.map_congr_left ?_
          intro b _
          rfl
        rw [h3, List.map_const', List.sum_replicate, smul_eq_mul, hlen ins]
      rw [h1, List.length_cons]
      ring

/-! ## csl_kernel/parser.py: the step-classification loop -/

/-- Python substring containment (`pat in s`). -/
def containsSub (pat : List Nat) : List Nat → Bool
  | [] => List.isPrefixOf pat []
  | c :: t => List.isPrefixOf pat (c :: t) || containsSub pat t

/-- One iteration of `parse_minimal`'s step loop on a canonical line:
lowercase, then test the gradient markers (`∇l`, `grad`), else the
projection marker (`p_v`), else the turnstile markers (`⊢`, `vdash`);
unmatched lines yield nothing. -/
def classifyLine (ln : List Nat) : Option Step :=
  let l := ln.map pyLower
  if containsSub [8711, 108] l || containsSub [103, 114, 97, 100] l then
    some .grad
  else if containsSub [112, 95, 118] l then some .project
  else if containsSub [8866] l || containsSub [118, 100, 97, 115, 104] l
    then some .goal
  else none

/-- The step loop of `parse_minimal`: every line after the second is
classified in order and appends at most one `Step`. -/
def parseSteps (lines : List (List Nat)) : List Step :=
  (lines.drop 2).foldl (fun acc ln =>
    match classifyLine ln with
    | some st => acc ++ [st]
    | none => acc) []

/-- A gradient marker (`∇l` or `grad`) occurs in the lowercased line. -/
def hasGradMarker (ln : List Nat) : Bool :=
  containsSub [8711, 108] (ln.map pyLower) ||
    containsSub [103, 114, 97, 100] (ln.map pyLower)

/-- A projection marker (`p_v`) occurs in the lowercased line. -/
def hasProjMarker (ln : List Nat) : Bool :=
  containsSub [112, 95, 118] (ln.map pyLower)

/-- A turnstile marker (`⊢` or `vdash`) occurs in the lowercased line. -/
def hasGoalMarker (ln : List Nat) : Bool :=
  containsSub [8866] (ln.map pyLower) ||
    containsSub [118, 100, 97, 115, 104] (ln.map pyLower)

theorem parseSteps_eq_filterMap (lines : List (List Nat)) :
    parseSteps lines = (lines.drop 2).filterMap classifyLine := by
  unfold parseSteps
  suffices h : ∀ (l : List (List Nat)) (acc : List Step),
      l.foldl (fun acc ln =>
        match classifyLine ln with
        | some st => acc ++ [st]
        | none => acc) acc = acc ++ l.filterMap classifyLine by
    rw [h (lines.drop 2) [], List.nil_append]
  intro l
  induction l with
  | nil => intro acc; simp
  | cons ln l ih =>
    intro acc
    rw [List.foldl_cons, List.filterMap_cons]
    cases hc : classifyLine ln with
    | none => rw [ih acc]
    | some st =>
      rw [ih (acc ++ [st]), List.append_assoc]
      rfl

/-- Claim C10: every line after the second yields at most one `Step`;
classification applies the fixed precedence — a gradient marker wins and
suppresses the others, else a projection marker wins over the goal
marker, else a turnstile marker yields a goal step — and a line with no
marker yields no step and raises no error (classification is total). -/
theorem step_classification_spec :
    (∀ lines : List (List Nat),
      (parseSteps lines).length ≤ (lines.drop 2).length) ∧
    (∀ ln, hasGradMarker ln = true → classifyLine ln = some .grad) ∧
    (∀ ln, hasGradMarker ln = false → hasProjMarker ln = true →
      classifyLine ln = some .project) ∧
    (∀ ln, hasGradMarker ln = false → hasProjMarker ln = false →
      hasGoalMarker ln = true → classifyLine ln = some .goal) ∧
    (∀ ln, hasGradMarker ln = false → hasProjMarker ln = false →
      hasGoalMarker ln = false → classifyLine ln = none) := by
  refine ⟨?_, ?_, ?_, ?_, ?_⟩
  · intro lines
    rw [parseSteps_eq_filterMap]
    exact List.length_filterMap_le _ _
  · intro ln h
    unfold hasGradMarker at h
    simp only [classifyLine]
    rw [h]
    rfl
  · intro ln hg hp
    unfold hasGradMarker at hg
    unfold hasProjMarker at hp
    simp only [classifyLine]
    rw [hg, hp]
    rfl
  · intro ln hg hp hgo
    unfold hasGradMarker at hg
    unfold hasProjMarker at hp
    unfold hasGoalMarker at hgo
    simp only [classifyLine]
    rw [hg, hp, hgo]
    rfl
  · intro ln hg hp hgo
    unfold hasGradMarker at hg
    unfold hasProjMarker at hp
    unfold hasGoalMarker at hgo
    simp only [classifyLine]
    rw [hg, hp, hgo]
    rfl

/-- Claim C10 witness: a line containing all three marker kinds
classifies as a single `grad` step; a marker-free line yields nothing. -/
theorem step_classification_spec_witness :
    classifyLine
      [103, 114, 97, 100, 32, 112, 95, 118, 32, 118, 100, 97, 115, 104] =
      some .grad ∧
    classifyLine [104, 105] = none :=
  ⟨step_classification_spec.2.1 _ (by decide),
   step_classification_spec.2.2.2.2 _ (by decide) (by decide) (by decide)⟩

/-! ## csl_any_collapse.py (Variant A) and collapse_unpack.py (Variant B):
the container codec.  zlib compression and decompression are external
library calls; they are passed in as function parameters, and the Variant
A round-trip theorem assumes only their documented inverse property. -/

def VARIANT_VER : Nat := 1

/-- `b'CSLXRAW'`. -/
def MAGIC_A : List Nat := [67, 83, 76, 88, 82, 65, 87]

/-- `b'CSLX'`. -/
def MAGIC_B : List Nat := [67, 83, 76, 88]

/-- `struct.pack('>I', n)` / `int.to_bytes(4, 'big')`. -/
def beBytes4 (n : Nat) : List Nat :=
  [n / 256 ^ 3 % 256, n / 256 ^ 2 % 256, n / 256 % 256, n % 256]

/-- `int.from_bytes(bs, 'big')`. -/
def beDecode (bs : List Nat) : Nat :=
  bs.foldl (fun acc b => acc * 256 + b) 0

/-- `pack_any`: `MAGIC + pack('>I', VER) + pack('>I', len(name)) + name +
zlib.compress(raw)`; the file name is carried as its UTF-8 bytes. -/
def pack_any (comp : List Nat → List Nat) (name raw : List Nat) : List Nat :=
  MAGIC_A ++ beBytes4 VARIANT_VER ++ beBytes4 name.length ++ name ++ comp raw

/-- `unpack_any`: check the 7-byte magic (`AssertionError`, the bad-magic
member of the spec's FormatError taxonomy, on mismatch — raised before any
write), then read the name length, the name and the decompressed payload.
The returned pair is the single filesystem write the function performs
(path from the embedded name, recovered bytes); a returned error means
nothing was written. -/
def unpack_any (decomp : List Nat → Except Err (List Nat)) (pkg : List Nat) :
    Except Err (List Nat × List Nat) :=
  if pkg.take 7 ≠ MAGIC_A then .error (.formatError "invalid CSLX magic")
  else
    let nlen := beDecode ((pkg.drop 11).take 4)
    let name := (pkg.drop 15).take nlen
    match decomp (pkg.drop (15 + nlen)) with
    | .ok data => .ok (name, data)
    | .error e => .error e

/-- `collapse_unpack.unpack`: check the 4-byte magic
(`ValueError("bad magic")` on mismatch — raised before any write); the
continuation `rest` stands for the remainder of the pipeline (version
field, decompression, JSON parsing, node reconstruction, rendering and
the single output write), none of which runs on a magic mismatch. -/
def unpackB (rest : List Nat → Except Err (List Char)) (raw : List Nat) :
    Except Err (List Char) :=
  if raw.take 4 ≠ MAGIC_B then .error (.formatError "bad magic")
  else rest (raw.drop 4)

/-- Claim C5: on any input whose leading bytes are not the variant's
magic, unpacking fails with the format error and performs no filesystem
write (the write is the success value, never produced on this path). -/
theorem unpack_bad_magic :
    (∀ (decomp : List Nat → Except Err (List Nat)) (pkg : List Nat),
      pkg.take 7 ≠ MAGIC_A →
        unpack_any decomp pkg = .error (.formatError "invalid CSLX magic")) ∧
    (∀ (rest : List Nat → Except Err (List Char)) (raw : List Nat),
      raw.take 4 ≠ MAGIC_B →
        unpackB rest raw = .error (.formatError "bad magic")) := by
  constructor
  · intro decomp pkg h
    unfold unpack_any
    rw [if_pos h]
  · intro rest raw h
    unfold unpackB
    rw [if_pos h]

/-- Claim C5 witness: both unpack variants reject a concrete three-byte
input. -/
theorem unpack_bad_magic_witness :
    unpack_any (fun b => .ok b) [1, 2, 3] =
      .error (.formatError "invalid CSLX magic") ∧
    unpackB (fun _ => .ok []) [1, 2, 3] = .error (.formatError "bad magic") :=
  ⟨unpack_bad_magic.1 (fun b => .ok b) [1, 2, 3] (by decide),
   unpack_bad_magic.2 (fun _ => .ok []) [1, 2, 3] (by decide)⟩

theorem beDecode_beBytes4 (n : Nat) (h : n < 2 ^ 32) :
    beDecode (beBytes4 n) = n := by
  unfold beDecode beBytes4
  simp only [List.foldl_cons, List.foldl_nil]
  omega

/-- Claim C7: for every byte string (including the empty one) and every
name of encodable length, unpacking a Variant A package recovers exactly
the original bytes (given the compressor/decompressor inverse contract of
zlib). -/
theorem unpack_any_pack_any (comp : List Nat → List Nat)
    (decomp : List Nat → Except Err (List Nat))
    (hinv : ∀ b, decomp (comp b) = .ok b)
    (name raw : List Nat) (hlen : name.length < 2 ^ 32) :
    unpack_any decomp (pack_any comp name raw) = .ok (name, raw) := by
  unfold unpack_any pack_any
  have htake : (MAGIC_A ++ beBytes4 VARIANT_VER ++ beBytes4 name.length ++
      name ++ comp raw).take 7 = MAGIC_A := by
    rw [List.append_assoc, List.append_assoc, List.append_assoc]
    rw [show (7 : Nat) = MAGIC_A.length from rfl]
    exact List.take_left MAGIC_A _
  rw [if_neg (by rw [htake]; exact fun h => h rfl)]
  have hdrop11 : (MAGIC_A ++ beBytes4 VARIANT_VER ++ beBytes4 name.length ++
      name ++ comp raw).drop 11 = beBytes4 name.length ++ name ++ comp raw := by
    have hre : MAGIC_A ++ beBytes4 VARIANT_VER ++ beBytes4 name.length ++
        name ++ comp raw = (MAGIC_A ++ beBytes4 VARIANT_VER) ++
        (beBytes4 name.length ++ name ++ comp raw) := by
      simp [List.append_assoc]
    rw [hre, show (11 : Nat) = (MAGIC_A ++ beBytes4 VARIANT_VER).length
      from rfl, List.drop_left]
  have hnlen : beDecode (((MAGIC_A ++ beBytes4 VARIANT_VER ++
      beBytes4 name.length ++ name ++ comp raw).drop 11).take 4) =
      name.length := by
    rw [hdrop11, List.append_assoc,
      show (4 : Nat) = (beBytes4 name.length).length from rfl,
      List.take_left]
    exact beDecode_beBytes4 name.length hlen
  have hdrop15 : (MAGIC_A ++ beBytes4 VARIANT_VER ++ beBytes4 name.length ++
      name ++ comp raw).drop 15 = name ++ comp raw := by
    have hre : MAGIC_A ++ beBytes4 VARIANT_VER ++ beBytes4 name.length ++
        name ++ comp raw = (MAGIC_A ++ beBytes4 VARIANT_VER ++
        beBytes4 name.length) ++ (name ++ comp raw) := by
      simp [List.append_assoc]
    rw [hre, show (15 : Nat) = (MAGIC_A ++ beBytes4 VARIANT_VER ++
      beBytes4 name.length).length from rfl, List.drop_left]
  simp only [hnlen]
  rw [hdrop15, List.take_left]
  have hdropall : (MAGIC_A ++ beBytes4 VARIANT_VER ++ beBytes4 name.length ++
      name ++ comp raw).drop (15 + name.length) = comp raw := by
    have hre : MAGIC_A ++ beBytes4 VARIANT_VER ++ beBytes4 name.length ++
        name ++ comp raw = (MAGIC_A ++ beBytes4 VARIANT_VER ++
        beBytes4 name.length ++ name) ++ comp raw := rfl
    have hlen15 : 15 + name.length = (MAGIC_A ++ beBytes4 VARIANT_VER ++
        beBytes4 name.length ++ name).length := by
      simp [MAGIC_A, beBytes4]
      omega
    rw [hre, hlen15, List.drop_left]
  rw [hdropall, hinv raw]

/-- Claim C7 witness: a concrete round-trip with the identity codec, a
one-byte name and empty content. -/
theorem unpack_any_pack_any_witness :
    unpack_any (fun b => .ok b) (pack_any (fun b => b) [120] []) =
      .ok ([120], []) :=
  unpack_any_pack_any (fun b => b) (fun b => .ok b) (fun _ => rfl) [120] []
    (by decide)

/-! ## collapse_pack.py / collapse_unpack.py (Variant B): the packable AST
subset and the rendering of `z_to_py`.

The text emitted by `unpack` is Python source; its evaluation is modelled
by a parser for the emitted expression fragment (on which Python's own
parser produces the same trees, every binary operation being fully
parenthesized) followed by sequential assignment evaluation over the same
environment and `Runtime.eval` for expressions. -/

/-- ASCII letter, by code point. -/
def isAlphaB (c : Char) : Bool :=
  (65 ≤ c.toNat && c.toNat ≤ 90) || (97 ≤ c.toNat && c.toNat ≤ 122)

/-- ASCII digit, by code point. -/
def isDigitB (c : Char) : Bool := 48 ≤ c.toNat && c.toNat ≤ 57

/-- First character of a Python identifier (ASCII model). -/
def isIdStartB (c : Char) : Bool := isAlphaB c || c = '_'

/-- Later character of a Python identifier (ASCII model). -/
def isIdCharB (c : Char) : Bool := isAlphaB c || isDigitB c || c = '_'

/-- A non-empty well-formed identifier, as produced by `ast.Name`. -/
def isIdent (s : String) : Bool :=
  match s.toList with
  | [] => false
  | c :: t => isIdStartB c && t.all isIdCharB

/-- The callee position of a packable `APPLY` chain: `visit_Call` only
accepts a bare name, so chains are `VAR`-headed. -/
def headShaped : ZNode → Bool
  | .VAR _ => true
  | .APPLY _ _ => true
  | _ => false

/-- The expression subset `PyToZ` can build: non-negative integer
literals (`visit_Constant`), names, `+` and `*` (`visit_BinOp`),
`VAR`-headed application chains (`visit_Call` and the desugared binary
operators), and no `let` below expression level. -/
def exprPackable : ZNode → Bool
  | .INT v => decide (0 ≤ v)
  | .VAR s => isIdent s
  | .ADD a b => exprPackable a && exprPackable b
  | .MUL a b => exprPackable a && exprPackable b
  | .APPLY f a => exprPackable f && headShaped f && exprPackable a
  | .LET _ _ _ => false

/-- The module shapes `PyToZ.visit_Module` builds: a chain of `LET`s (one
per assignment statement, in source order, each bound value `LET`-free)
around a final `LET`-free expression. -/
def packable : ZNode → Bool
  | .LET nm v b => isIdent nm && exprPackable v && packable b
  | z => exprPackable z

/-- The assignment pairs of a packable chain, outermost first. -/
def letPairs : ZNode → List (String × ZNode)
  | .LET nm v b => (nm, v) :: letPairs b
  | _ => []

/-- The final expression under a packable chain. -/
def finalExpr : ZNode → ZNode
  | .LET _ _ b => finalExpr b
  | z => z

/-- `z_to_py`: the hoisted assignment lines (in append order) and the
rendered final expression, mirroring the recursive renderer `t` with its
`assigns` accumulator. -/
def z_to_py : ZNode → List (List Char) × List Char
  | .INT v => ([], (intStr v).toList)
  | .VAR s => ([], s.toList)
  | .ADD a b =>
    let ra := z_to_py a
    let rb := z_to_py b
    (ra.1 ++ rb.1, '(' :: ra.2 ++ ' ' :: '+' :: ' ' :: rb.2 ++ [')'])
  | .MUL a b =>
    let ra := z_to_py a
    let rb := z_to_py b
    (ra.1 ++ rb.1, '(' :: ra.2 ++ ' ' :: '*' :: ' ' :: rb.2 ++ [')'])
  | .APPLY f a =>
    let rf := z_to_py f
    let ra := z_to_py a
    (rf.1 ++ ra.1, rf.2 ++ '(' :: ra.2 ++ [')'])
  | .LET nm v b =>
    let rv := z_to_py v
    let rb := z_to_py b
    (rv.1 ++ (nm.toList ++ ' ' :: '=' :: ' ' :: rv.2) :: rb.1, rb.2)

/-- The rendered source text of a node. -/
def renderE (z : ZNode) : List Char := (z_to_py z).2

/-- Numeric value of a run of decimal digit characters. -/
def digitsValNat (ds : List Char) : Nat :=
  ds.foldl (fun a c => 10 * a + (c.toNat - 48)) 0

/-- Fuel bound for the expression parser. -/
def zfuel : ZNode → Nat
  | .INT _ => 1
  | .VAR _ => 2
  | .ADD a b => 1 + zfuel a + zfuel b
  | .MUL a b => 1 + zfuel a + zfuel b
  | .APPLY f a => 1 + zfuel f + zfuel a
  | .LET _ v b => 1 + zfuel v + zfuel b

mutual

/-- Parser for the emitted expression fragment: an integer literal, a
name followed by zero or more call groups, or a fully parenthesized
binary operation.  On every string `z_to_py` emits this agrees with
Python's expression parser. -/
def pExpr : Nat → List Char → Option (ZNode × List Char)
  | 0, _ => none
  | fuel + 1, s =>
    match s with
    | [] => none
    | c :: t =>
      if c = '(' then
        match pExpr fuel t with
        | some (a, r) => pBinTail fuel a r
        | none => none
      else if isDigitB c then
        some (.INT ((digitsValNat ((c :: t).takeWhile isDigitB) : Nat) : Int),
          (c :: t).dropWhile isDigitB)
      else if isIdStartB c then
        pCalls fuel (.VAR (String.mk ((c :: t).takeWhile isIdCharB)))
          ((c :: t).dropWhile isIdCharB)
      else none

/-- After the left operand of a parenthesized binary operation: the
spaced operator, the right operand and the closing parenthesis. -/
def pBinTail : Nat → ZNode → List Char → Option (ZNode × List Char)
  | 0, _, _ => none
  | fuel + 1, a, r =>
    match r with
    | ' ' :: '+' :: ' ' :: r2 =>
      match pExpr fuel r2 with
      | some (b, ')' :: r4) => some (.ADD a b, r4)
      | _ => none
    | ' ' :: '*' :: ' ' :: r2 =>
      match pExpr fuel r2 with
      | some (b, ')' :: r4) => some (.MUL a b, r4)
      | _ => none
    | _ => none

/-- Zero or more `(argument)` call groups after a callee. -/
def pCalls : Nat → ZNode → List Char → Option (ZNode × List Char)
  | 0, _, _ => none
  | fuel + 1, f, s =>
    match s with
    | [] => some (f, [])
    | c :: t =>
      if c = '(' then
        match pExpr fuel t with
        | some (a, ')' :: r2) => pCalls fuel (.APPLY f a) r2
        | _ => none
      else some (f, c :: t)

end

/-- Parse one emitted assignment line `name = expression`. -/
def parseAssignLine (line : List Char) : Option (String × ZNode) :=
  match line with
  | [] => none
  | c :: t =>
    if isIdStartB c then
      match (c :: t).dropWhile isIdCharB with
      | ' ' :: '=' :: ' ' :: r =>
        match pExpr (r.length + 1) r with
        | some (e, []) => some (String.mk ((c :: t).takeWhile isIdCharB), e)
        | _ => none
      | _ => none
    else none

/-- Parse the emitted final-expression line. -/
def parseExprLine (line : List Char) : Option ZNode :=
  match pExpr (line.length + 1) line with
  | some (e, []) => some e
  | _ => none

/-- Python's evaluation of the emitted module: each assignment statement
evaluates its right-hand side and stores the value in the module
dictionary, in order; the final expression's value is the result. -/
def evalModule (e : Env) : List (String × ZNode) → ZNode → Except Err Value
  | [], fin => (eval fin e).1
  | (nm, ex) :: rest, fin =>
    match eval ex e with
    | (.ok v, e') => evalModule (envSet e' nm v) rest fin
    | (.error er, _) => .error er

/-- Left-nested application of an argument list. -/
def applyAll (f : ZNode) : List ZNode → ZNode
  | [] => f
  | a :: as1 => applyAll (.APPLY f a) as1

/-- The head name and ordered argument list of a `VAR`-headed chain. -/
def chainParts : ZNode → Option (String × List ZNode)
  | .VAR s => some (s, [])
  | .APPLY f a => (chainParts f).map (fun p => (p.1, p.2 ++ [a]))
  | _ => none

/-- The rendered call groups of an argument list. -/
def renderGroups (as1 : List ZNode) : List Char :=
  (as1.map (fun a => '(' :: renderE a ++ [')'])).flatten

/-- Fuel needed by `pCalls` to consume the groups of an argument list. -/
def groupsFuel (as1 : List ZNode) : Nat :=
  1 + (as1.map (fun a => zfuel a + 1)).sum

/-- May the parse of a rendered node stop here: the rest of a line is
empty or continues with a space or a closing parenthesis. -/
def followOK (rest : List Char) : Bool :=
  match rest with
  | [] => true
  | c :: _ => c = ' ' || c = ')'

theorem zfuel_pos (z : ZNode) : 1 ≤ zfuel z := by
  cases z <;> simp only [zfuel] <;> omega

theorem char_eq_of_toNat (c d : Char) (h : c.toNat = d.toNat) : c = d :=
  Char.ext (UInt32.ext h)

theorem char_toNat_lparen : '('.toNat = 40 := rfl

theorem isAlphaB_iff (c : Char) : isAlphaB c = true ↔
    (65 ≤ c.toNat ∧ c.toNat ≤ 90) ∨ (97 ≤ c.toNat ∧ c.toNat ≤ 122) := by
  unfold isAlphaB
  simp

theorem isDigitB_iff (c : Char) :
    isDigitB c = true ↔ 48 ≤ c.toNat ∧ c.toNat ≤ 57 := by
  unfold isDigitB
  simp

theorem char_underscore_iff (c : Char) : c = '_' ↔ c.toNat = 95 := by
  constructor
  · intro h
    rw [h]
    rfl
  · intro h
    exact char_eq_of_toNat c '_' h

theorem isIdCharB_iff (c : Char) : isIdCharB c = true ↔
    (65 ≤ c.toNat ∧ c.toNat ≤ 90) ∨ (97 ≤ c.toNat ∧ c.toNat ≤ 122) ∨
    (48 ≤ c.toNat ∧ c.toNat ≤ 57) ∨ c.toNat = 95 := by
  unfold isIdCharB
  rw [Bool.or_eq_true, Bool.or_eq_true, isAlphaB_iff, isDigitB_iff,
    decide_eq_true_eq, char_underscore_iff]
  tauto

theorem isIdStartB_iff (c : Char) : isIdStartB c = true ↔
    (65 ≤ c.toNat ∧ c.toNat ≤ 90) ∨ (97 ≤ c.toNat ∧ c.toNat ≤ 122) ∨
    c.toNat = 95 := by
  unfold isIdStartB
  rw [Bool.or_eq_true, isAlphaB_iff, decide_eq_true_eq, char_underscore_iff]
  tauto

theorem isDigitB_eq_false (c : Char) (h : ¬(48 ≤ c.toNat ∧ c.toNat ≤ 57)) :
    isDigitB c = false := by
  rw [Bool.eq_false_iff]
  intro hc
  exact h ((isDigitB_iff c).1 hc)

theorem isIdCharB_eq_false (c : Char)
    (h : ¬((65 ≤ c.toNat ∧ c.toNat ≤ 90) ∨ (97 ≤ c.toNat ∧ c.toNat ≤ 122) ∨
      (48 ≤ c.toNat ∧ c.toNat ≤ 57) ∨ c.toNat = 95)) :
    isIdCharB c = false := by
  rw [Bool.eq_false_iff]
  intro hc
  exact h ((isIdCharB_iff c).1 hc)

/-- A `followOK` head is neither a digit, an identifier character, nor an
opening parenthesis. -/
theorem followOK_head (c : Char) (t : List Char)
    (h : followOK (c :: t) = true) :
    isDigitB c = false ∧ isIdCharB c = false ∧ c ≠ '(' := by
  unfold followOK at h
  rw [Bool.or_eq_true, decide_eq_true_eq, decide_eq_true_eq] at h
  have hval : c.toNat = 32 ∨ c.toNat = 41 := by
    rcases h with h | h
    · exact Or.inl (congrArg Char.toNat h)
    · exact Or.inr (congrArg Char.toNat h)
  refine ⟨isDigitB_eq_false c (by omega), isIdCharB_eq_false c (by omega), ?_⟩
  intro hc
  have := congrArg Char.toNat hc
  rw [char_toNat_lparen] at this
  omega

theorem isIdStartB_not_lparen (c : Char) (h : isIdStartB c = true) :
    c ≠ '(' := by
  have hv := (isIdStartB_iff c).1 h
  intro hc
  have := congrArg Char.toNat hc
  rw [char_toNat_lparen] at this
  omega

theorem isIdStartB_not_digit (c : Char) (h : isIdStartB c = true) :
    isDigitB c = false := by
  have hv := (isIdStartB_iff c).1 h
  exact isDigitB_eq_false c (by omega)

theorem isIdStartB_isIdCharB (c : Char) (h : isIdStartB c = true) :
    isIdCharB c = true := by
  rw [isIdCharB_iff]
  have hv := (isIdStartB_iff c).1 h
  tauto

theorem isDigitB_not_lparen (c : Char) (h : isDigitB c = true) : c ≠ '(' := by
  have hv := (isDigitB_iff c).1 h
  intro hc
  have := congrArg Char.toNat hc
  rw [char_toNat_lparen] at this
  omega

theorem digitChar_toNat (d : Nat) (h : d < 10) :
    (Char.ofNat (48 + d)).toNat = 48 + d := by
  interval_cases d <;> rfl

theorem digitChar_isDigitB (d : Nat) (h : d < 10) :
    isDigitB (Char.ofNat (48 + d)) = true := by
  interval_cases d <;> rfl

theorem natDigitsAux_digits (fuel : Nat) :
    ∀ n, ∀ c ∈ natDigitsAux fuel n, isDigitB c = true := by
  induction fuel with
  | zero => intro n c hc; simp [natDigitsAux] at hc
  | succ fuel ih =>
    intro n c hc
    rw [natDigitsAux] at hc
    by_cases h : n < 10
    · rw [if_pos h] at hc
      rcases List.mem_singleton.1 hc with rfl
      exact digitChar_isDigitB n h
    · rw [if_neg h] at hc
      rcases List.mem_append.1 hc with hc' | hc'
      · exact ih (n / 10) c hc'
      · rcases List.mem_singleton.1 hc' with rfl
        exact digitChar_isDigitB (n % 10) (Nat.mod_lt n (by omega))

theorem natDigitsAux_ne_nil (fuel n : Nat) :
    natDigitsAux (fuel + 1) n ≠ [] := by
  rw [natDigitsAux]
  by_cases h : n < 10
  · rw [if_pos h]
    simp
  · rw [if_neg h]
    simp

theorem digitsValNat_append_digit (ds : List Char) (c : Char) :
    digitsValNat (ds ++ [c]) = 10 * digitsValNat ds + (c.toNat - 48) := by
  unfold digitsValNat
  rw [List.foldl_append]
  rfl

theorem digitsValNat_natDigitsAux (fuel : Nat) :
    ∀ n, n < fuel → digitsValNat (natDigitsAux fuel n) = n := by
  induction fuel with
  | zero => intro n h; omega
  | succ fuel ih =>
    intro n h
    rw [natDigitsAux]
    by_cases h10 : n < 10
    · rw [if_pos h10]
      show digitsValNat [Char.ofNat (48 + n)] = n
      unfold digitsValNat
      rw [List.foldl_cons, List.foldl_nil, digitChar_toNat n h10]
      omega
    · rw [if_neg h10]
      rw [digitsValNat_append_digit,
        ih (n / 10) (by omega),
        digitChar_toNat (n % 10) (Nat.mod_lt n (by omega))]
      omega

theorem String_mk_toList (s : String) : String.mk s.toList = s := rfl

theorem isIdent_toList (s : String) (h : isIdent s = true) :
    ∃ c t, s.toList = c :: t ∧ isIdStartB c = true ∧
      ∀ x ∈ s.toList, isIdCharB x = true := by
  unfold isIdent at h
  cases hs : s.toList with
  | nil => rw [hs] at h; exact absurd h (by simp)
  | cons c t =>
    rw [hs] at h
    simp only [Bool.and_eq_true] at h
    refine ⟨c, t, rfl, h.1, ?_⟩
    intro x hx
    rcases List.mem_cons.1 hx with rfl | hx'
    · exact isIdStartB_isIdCharB x h.1
    · exact (List.all_eq_true.1 h.2) x hx'

theorem applyAll_append_single (l : List ZNode) :
    ∀ (f : ZNode) (a : ZNode),
      applyAll f (l ++ [a]) = .APPLY (applyAll f l) a := by
  induction l with
  | nil => intro f a; rfl
  | cons x l ih =>
    intro f a
    show applyAll (.APPLY f x) (l ++ [a]) = .APPLY (applyAll (.APPLY f x) l) a
    exact ih (.APPLY f x) a

theorem renderGroups_append (l1 l2 : List ZNode) :
    renderGroups (l1 ++ l2) = renderGroups l1 ++ renderGroups l2 := by
  unfold renderGroups
  rw [List.map_append, List.flatten_append]

theorem groupsFuel_append_single (l : List ZNode) (a : ZNode) :
    groupsFuel (l ++ [a]) = groupsFuel l + (zfuel a + 1) := by
  unfold groupsFuel
  rw [List.map_append, List.sum_append]
  simp
  omega

theorem chain_decomp (z : ZNode) : exprPackable z = true →
    headShaped z = true →
    ∃ nm args, chainParts z = some (nm, args) ∧ isIdent nm = true ∧
      (∀ a ∈ args, exprPackable a = true) ∧
      applyAll (.VAR nm) args = z ∧
      renderE z = nm.toList ++ renderGroups args ∧
      zfuel z = groupsFuel args + 1 := by
  induction z with
  | INT v => intro _ hs; simp [headShaped] at hs
  | VAR s =>
    intro hp _
    refine ⟨s, [], rfl, hp, by simp, rfl, ?_, ?_⟩
    · show renderE (.VAR s) = s.toList ++ []
      rw [List.append_nil]
      rfl
    · rfl
  | ADD a b iha ihb => intro _ hs; simp [headShaped] at hs
  | MUL a b iha ihb => intro _ hs; simp [headShaped] at hs
  | APPLY f a ihf iha =>
    intro hp hs
    unfold exprPackable at hp
    rw [Bool.and_eq_true, Bool.and_eq_true] at hp
    obtain ⟨⟨hpf, hsf⟩, hpa⟩ := hp
    obtain ⟨nm, args0, hcp, hnm, hall, happ, hrender, hfuel⟩ := ihf hpf hsf
    refine ⟨nm, args0 ++ [a], ?_, hnm, ?_, ?_, ?_, ?_⟩
    · show (chainParts f).map (fun p => (p.1, p.2 ++ [a])) =
        some (nm, args0 ++ [a])
      rw [hcp]
      rfl
    · intro x hx
      rcases List.mem_append.1 hx with hx' | hx'
      · exact hall x hx'
      · rcases List.mem_singleton.1 hx' with rfl
        exact hpa
    · rw [applyAll_append_single, happ]
    · show renderE f ++ '(' :: renderE a ++ [')'] = _
      rw [hrender, renderGroups_append, List.append_assoc]
      have hg : renderGroups [a] = '(' :: renderE a ++ [')'] := by
        unfold renderGroups
        simp
      rw [hg, List.append_assoc]
    · show 1 + zfuel f + zfuel a = _
      rw [hfuel, groupsFuel_append_single]
      omega
  | LET nm v b ihv ihb => intro _ hs; simp [headShaped] at hs

theorem groupsFuel_pos (args : List ZNode) : 1 ≤ groupsFuel args := by
  unfold groupsFuel
  omega

theorem followOK_rparen (t : List Char) : followOK (')' :: t) = true := rfl

theorem followOK_space (t : List Char) : followOK (' ' :: t) = true := rfl

theorem pCalls_groups (args : List ZNode)
    (HR : ∀ a ∈ args, ∀ (rest : List Char) (fuel : Nat),
      followOK rest = true → zfuel a ≤ fuel →
      pExpr fuel (renderE a ++ rest) = some (a, rest)) :
    ∀ (f : ZNode) (rest : List Char) (fuel : Nat), followOK rest = true →
      groupsFuel args ≤ fuel →
      pCalls fuel f (renderGroups args ++ rest) = some (applyAll f args, rest) := by
  induction args with
  | nil =>
    intro f rest fuel hf hfuel
    obtain ⟨g, rfl⟩ : ∃ g, fuel = g + 1 :=
      ⟨fuel - 1, by have := groupsFuel_pos []; omega⟩
    show pCalls (g + 1) f ([] ++ rest) = some (f, rest)
    rw [List.nil_append]
    cases rest with
    | nil => rfl
    | cons c t =>
      rw [pCalls, if_neg (followOK_head c t hf).2.2]
  | cons a args ih =>
    intro f rest fuel hf hfuel
    have hga : groupsFuel (a :: args) = groupsFuel args + zfuel a + 1 := by
      unfold groupsFuel
      simp
      omega
    obtain ⟨g, rfl⟩ : ∃ g, fuel = g + 1 :=
      ⟨fuel - 1, by rw [hga] at hfuel; omega⟩
    have hrg : renderGroups (a :: args) ++ rest =
        '(' :: (renderE a ++ (')' :: (renderGroups args ++ rest))) := by
      unfold renderGroups
      simp
    rw [hrg, pCalls, if_pos rfl,
      HR a (List.mem_cons_self a args) (')' :: (renderGroups args ++ rest)) g
        (followOK_rparen _)
        (by rw [hga] at hfuel; have := groupsFuel_pos args; omega)]
    show pCalls g (.APPLY f a) (renderGroups args ++ rest) =
      some (applyAll f (a :: args), rest)
    exact ih (fun x hx => HR x (List.mem_cons_of_mem a hx)) (.APPLY f a) rest g
      hf (by rw [hga] at hfuel; omega)

theorem renderE_INT (v : Int) : renderE (.INT v) = (intStr v).toList := rfl

theorem renderE_VAR (s : String) : renderE (.VAR s) = s.toList := rfl

theorem renderE_ADD (a b : ZNode) : renderE (.ADD a b) =
    '(' :: renderE a ++ ' ' :: '+' :: ' ' :: renderE b ++ [')'] := rfl

theorem renderE_MUL (a b : ZNode) : renderE (.MUL a b) =
    '(' :: renderE a ++ ' ' :: '*' :: ' ' :: renderE b ++ [')'] := rfl

theorem renderE_APPLY (f a : ZNode) : renderE (.APPLY f a) =
    renderE f ++ '(' :: renderE a ++ [')'] := rfl

theorem takeWhile_append_stop2 {α : Type} (p : α → Bool) (xs : List α)
    (y : α) (r : List α) (hxs : ∀ x ∈ xs, p x = true) (hy : p y = false) :
    (xs ++ y :: r).takeWhile p = xs := by
  induction xs with
  | nil =>
    simp only [List.nil_append, List.takeWhile_cons, hy]
    rfl
  | cons x xs ih =>
    simp only [List.cons_append, List.takeWhile_cons,
      hxs x (List.mem_cons_self x xs), if_pos]
    rw [ih (fun z hz => hxs z (List.mem_cons_of_mem x hz))]

theorem dropWhile_append_stop2 {α : Type} (p : α → Bool) (xs : List α)
    (y : α) (r : List α) (hxs : ∀ x ∈ xs, p x = true) (hy : p y = false) :
    (xs ++ y :: r).dropWhile p = y :: r := by
  induction xs with
  | nil =>
    simp only [List.nil_append, List.dropWhile_cons, hy]
    rfl
  | cons x xs ih =>
    simp only [List.cons_append, List.dropWhile_cons,
      hxs x (List.mem_cons_self x xs), if_pos]
    exact ih (fun z hz => hxs z (List.mem_cons_of_mem x hz))

theorem takeWhile_eq_self2 {α : Type} (p : α → Bool) (l : List α)
    (h : ∀ x ∈ l, p x = true) : l.takeWhile p = l := by
  induction l with
  | nil => rfl
  | cons x xs ih =>
    simp only [List.takeWhile_cons, h x (List.mem_cons_self x xs), if_pos]
    rw [ih (fun z hz => h z (List.mem_cons_of_mem x hz))]

theorem dropWhile_eq_nil2 {α : Type} (p : α → Bool) (l : List α)
    (h : ∀ x ∈ l, p x = true) : l.dropWhile p = [] := by
  induction l with
  | nil => rfl
  | cons x xs ih =>
    simp only [List.dropWhile_cons, h x (List.mem_cons_self x xs), if_pos]
    exact ih (fun z hz => h z (List.mem_cons_of_mem x hz))

theorem takeWhile_block (p : Char → Bool) (xs rest : List Char)
    (hxs : ∀ x ∈ xs, p x = true) (hrest : followOK rest = true)
    (hstop : ∀ c t, followOK (c :: t) = true → p c = false) :
    (xs ++ rest).takeWhile p = xs ∧ (xs ++ rest).dropWhile p = rest := by
  cases rest with
  | nil =>
    rw [List.append_nil]
    exact ⟨takeWhile_eq_self2 p xs hxs, dropWhile_eq_nil2 p xs hxs⟩
  | cons r t =>
    exact ⟨takeWhile_append_stop2 p xs r t hxs (hstop r t hrest),
      dropWhile_append_stop2 p xs r t hxs (hstop r t hrest)⟩

theorem pExpr_render : ∀ (N : Nat) (z : ZNode), zfuel z ≤ N →
    exprPackable z = true →
    ∀ (rest : List Char) (fuel : Nat), followOK rest = true → zfuel z ≤ fuel →
      pExpr fuel (renderE z ++ rest) = some (z, rest) := by
  intro N
  induction N with
  | zero =>
    intro z hz _ _ _ _ _
    have := zfuel_pos z
    omega
  | succ N ih =>
    intro z hzN hp rest fuel hf hfuel
    cases z with
    | LET nm v b =>
      unfold exprPackable at hp
      simp at hp
    | INT v =>
      have hv : 0 ≤ v := by
        unfold exprPackable at hp
        exact of_decide_eq_true hp
      have hstr : (intStr v).toList = natDigitsAux (v.natAbs + 1) v.natAbs := by
        unfold intStr
        rw [if_neg (by omega)]
        rfl
      obtain ⟨g, rfl⟩ : ∃ g, fuel = g + 1 := ⟨fuel - 1, by
        have : zfuel (ZNode.INT v) = 1 := rfl
        omega⟩
      cases hd : natDigitsAux (v.natAbs + 1) v.natAbs with
      | nil => exact absurd hd (natDigitsAux_ne_nil _ _)
      | cons c ds =>
        have hall : ∀ x ∈ c :: ds, isDigitB x = true := by
          rw [← hd]
          exact natDigitsAux_digits _ _
        have hc : isDigitB c = true := hall c (List.mem_cons_self c ds)
        have hshape : renderE (.INT v) ++ rest = c :: (ds ++ rest) := by
          rw [renderE_INT, hstr, hd, List.cons_append]
        rw [hshape]
        simp only [pExpr]
        rw [if_neg (isDigitB_not_lparen c hc), if_pos hc]
        obtain ⟨htake, hdrop⟩ := takeWhile_block isDigitB (c :: ds) rest hall
          hf (fun c' t' h' => (followOK_head c' t' h').1)
        rw [show c :: (ds ++ rest) = (c :: ds) ++ rest from rfl, htake, hdrop]
        have hval : digitsValNat (c :: ds) = v.natAbs := by
          rw [← hd]
          exact digitsValNat_natDigitsAux _ _ (Nat.lt_succ_self _)
        rw [hval, Int.natAbs_of_nonneg hv]
    | VAR s =>
      obtain ⟨c, t, hs, hstart, hall⟩ := isIdent_toList s hp
      obtain ⟨g, rfl⟩ : ∃ g, fuel = g + 1 := ⟨fuel - 1, by
        have : zfuel (ZNode.VAR s) = 2 := rfl
        omega⟩
      have hshape : renderE (.VAR s) ++ rest = c :: (t ++ rest) := by
        rw [renderE_VAR, hs, List.cons_append]
      rw [hshape]
      simp only [pExpr]
      rw [if_neg (isIdStartB_not_lparen c hstart),
        if_neg (by rw [isIdStartB_not_digit c hstart]; exact Bool.false_ne_true),
        if_pos hstart]
      have hall' : ∀ x ∈ c :: t, isIdCharB x = true := by
        rw [← hs]
        exact hall
      obtain ⟨htake, hdrop⟩ := takeWhile_block isIdCharB (c :: t) rest hall'
        hf (fun c' t' h' => (followOK_head c' t' h').2.1)
      rw [show c :: (t ++ rest) = (c :: t) ++ rest from rfl, htake, hdrop,
        ← hs, String_mk_toList]
      have hg : pCalls g (.VAR s) (renderGroups [] ++ rest) =
          some (applyAll (.VAR s) [], rest) :=
        pCalls_groups [] (by intro a ha; simp at ha) (.VAR s) rest g hf
          (by have : zfuel (ZNode.VAR s) = 2 := rfl
              have : groupsFuel [] = 1 := rfl
              omega)
      rw [show renderGroups [] ++ rest = rest from rfl] at hg
      exact hg
    | ADD a b =>
      unfold exprPackable at hp
      rw [Bool.and_eq_true] at hp
      obtain ⟨hpa, hpb⟩ := hp
      have hza := zfuel_pos a
      have hzb := zfuel_pos b
      have hzadd : zfuel (ZNode.ADD a b) = 1 + zfuel a + zfuel b := rfl
      obtain ⟨g, rfl⟩ : ∃ g, fuel = g + 1 := ⟨fuel - 1, by omega⟩
      have hshape : renderE (.ADD a b) ++ rest =
          '(' :: (renderE a ++
            (' ' :: '+' :: ' ' :: (renderE b ++ (')' :: rest)))) := by
        rw [renderE_ADD]
        simp [List.append_assoc]
      rw [hshape]
      simp only [pExpr, if_true]
      rw [ih a (by omega) hpa _ g (followOK_space _) (by omega)]
      show pBinTail g a (' ' :: '+' :: ' ' :: (renderE b ++ ')' :: rest)) =
        some (.ADD a b, rest)
      obtain ⟨g2, rfl⟩ : ∃ g2, g = g2 + 1 := ⟨g - 1, by omega⟩
      simp only [pBinTail]
      rw [ih b (by omega) hpb _ g2 (followOK_rparen _) (by omega)]
      rfl
    | MUL a b =>
      unfold exprPackable at hp
      rw [Bool.and_eq_true] at hp
      obtain ⟨hpa, hpb⟩ := hp
      have hza := zfuel_pos a
      have hzb := zfuel_pos b
      have hzmul : zfuel (ZNode.MUL a b) = 1 + zfuel a + zfuel b := rfl
      obtain ⟨g, rfl⟩ : ∃ g, fuel = g + 1 := ⟨fuel - 1, by omega⟩
      have hshape : renderE (.MUL a b) ++ rest =
          '(' :: (renderE a ++
            (' ' :: '*' :: ' ' :: (renderE b ++ (')' :: rest)))) := by
        rw [renderE_MUL]
        simp [List.append_assoc]
      rw [hshape]
      simp only [pExpr, if_true]
      rw [ih a (by omega) hpa _ g (followOK_space _) (by omega)]
      show pBinTail g a (' ' :: '*' :: ' ' :: (renderE b ++ ')' :: rest)) =
        some (.MUL a b, rest)
      obtain ⟨g2, rfl⟩ : ∃ g2, g = g2 + 1 := ⟨g - 1, by omega⟩
      simp only [pBinTail]
      rw [ih b (by omega) hpb _ g2 (followOK_rparen _) (by omega)]
      rfl
    | APPLY f a =>
      obtain ⟨nm, args, hcp, hnm, hall, happ, hrender, hzf⟩ :=
        chain_decomp (.APPLY f a) hp rfl
      have hmemfuel : ∀ x ∈ args, zfuel x + 1 ≤
          (args.map (fun y => zfuel y + 1)).sum := by
        intro x hx
        exact List.single_le_sum (fun _ _ => Nat.zero_le _) _
          (List.mem_map_of_mem _ hx)
      have hgf : groupsFuel args = 1 + (args.map (fun y => zfuel y + 1)).sum :=
        rfl
      obtain ⟨g, rfl⟩ : ∃ g, fuel = g + 1 := ⟨fuel - 1, by
        have := zfuel_pos (ZNode.APPLY f a)
        omega⟩
      obtain ⟨c, t, hsnm, hstart, hallnm⟩ := isIdent_toList nm hnm
      cases hargs : args with
      | nil =>
        rw [hargs] at happ
        exact absurd happ (by simp [applyAll])
      | cons a0 as0 =>
        have hshape : renderE (.APPLY f a) ++ rest =
            c :: (t ++ (renderGroups args ++ rest)) := by
          rw [hrender, hsnm]
          simp [List.append_assoc]
        have hgroupshead : ∃ gt, renderGroups args ++ rest = '(' :: gt := by
          rw [hargs]
          refine ⟨renderE a0 ++ [')'] ++ (renderGroups as0 ++ rest), ?_⟩
          unfold renderGroups
          simp
        obtain ⟨gt, hgt⟩ := hgroupshead
        rw [hshape]
        simp only [pExpr]
        rw [if_neg (isIdStartB_not_lparen c hstart),
          if_neg (by rw [isIdStartB_not_digit c hstart]
                     exact Bool.false_ne_true),
          if_pos hstart]
        have hallnm' : ∀ x ∈ c :: t, isIdCharB x = true := by
          rw [← hsnm]
          exact hallnm
        have hstop : (c :: t) ++ (renderGroups args ++ rest) =
            (c :: t) ++ '(' :: gt := by rw [hgt]
        have hlparen_not_id : isIdCharB '(' = false :=
          isIdCharB_eq_false '(' (by rw [char_toNat_lparen]; omega)
        have htake : ((c :: t) ++ (renderGroups args ++ rest)).takeWhile
            isIdCharB = c :: t := by
          rw [hgt]
          exact takeWhile_append_stop2 _ _ _ _ hallnm' hlparen_not_id
        have hdrop : ((c :: t) ++ (renderGroups args ++ rest)).dropWhile
            isIdCharB = renderGroups args ++ rest := by
          rw [hgt]
          exact dropWhile_append_stop2 _ _ _ _ hallnm' hlparen_not_id
        rw [show c :: (t ++ (renderGroups args ++ rest)) =
          (c :: t) ++ (renderGroups args ++ rest) from rfl, htake, hdrop,
          ← hsnm, String_mk_toList]
        have hres := pCalls_groups args
          (fun x hx => ih x
            (by have h1 := hmemfuel x hx
                omega)
            (hall x hx))
          (.VAR nm) rest g hf (by omega)
        rw [hres, happ]

/-! ### Evaluation-side lemmas for the Variant B equivalence -/

theorem envGet_of_mem_wf (k : String) (w : Value) : ∀ e : Env, EnvWF e →
    (k, w) ∈ e → envGet e k = some w := by
  intro e
  induction e with
  | nil =>
    intro _ hm
    simp at hm
  | cons p e ih =>
    intro hwf hm
    obtain ⟨k0, w0⟩ := p
    unfold EnvWF at hwf
    simp only [List.map_cons, List.nodup_cons] at hwf
    rcases List.mem_cons.1 hm with h | h
    · injection h with h1 h2
      subst h1
      subst h2
      simp [envGet]
    · by_cases h0 : k0 = k
      · subst h0
        exact absurd (List.mem_map_of_mem Prod.fst h) hwf.1
      · rw [envGet, if_neg h0]
        exact ih hwf.2 h

theorem noNone_of_envGet_eq (e e' : Env) (hwf : EnvWF e')
    (hg : ∀ k, envGet e' k = envGet e k) (hnn : NoNone e) : NoNone e' := by
  intro p hp
  obtain ⟨k, w⟩ := p
  have h1 : envGet e' k = some w := envGet_of_mem_wf k w e' hwf hp
  rw [hg k] at h1
  exact hnn (k, w) (envGet_mem e k w h1)

theorem noNone_envSet (e : Env) (nm : String) (v : Value)
    (hv : v ≠ Value.vnone) : NoNone e → NoNone (envSet e nm v) := by
  induction e with
  | nil =>
    intro _ p hp
    rw [envSet] at hp
    obtain rfl := List.mem_singleton.1 hp
    exact hv
  | cons q e ih =>
    intro hnn p hp
    obtain ⟨k0, w0⟩ := q
    have hnn0 : ((k0, w0) : String × Value).2 ≠ Value.vnone :=
      hnn _ (List.mem_cons_self _ _)
    have hnnt : NoNone e := fun r hr => hnn r (List.mem_cons_of_mem _ hr)
    by_cases h0 : k0 = nm
    · rw [envSet, if_pos h0] at hp
      rcases List.mem_cons.1 hp with rfl | h
      · exact hv
      · exact hnnt _ h
    · rw [envSet, if_neg h0] at hp
      rcases List.mem_cons.1 hp with rfl | h
      · exact hnn0
      · exact ih hnnt _ h

theorem vadd_ne_vnone (a b v : Value) (h : vadd a b = .ok v) :
    v ≠ Value.vnone := by
  cases a <;> cases b <;>
    simp only [vadd] at h <;>
    (try exact Except.noConfusion h) <;>
    (obtain rfl := Except.ok.inj h; exact nofun)

theorem vmul_ne_vnone (a b v : Value) (h : vmul a b = .ok v) :
    v ≠ Value.vnone := by
  cases a <;> cases b <;>
    simp only [vmul] at h <;>
    (try exact Except.noConfusion h) <;>
    (obtain rfl := Except.ok.inj h; exact nofun)

theorem applyPrim1_ne_vnone (p : Prim1) (a v : Value)
    (h : applyPrim1 p a = .ok v) : v ≠ Value.vnone := by
  cases p <;> cases a <;>
    simp only [applyPrim1] at h <;>
    (try exact Except.noConfusion h) <;>
    (obtain rfl := Except.ok.inj h; exact nofun)

theorem applyPrim2_ne_vnone (p : Prim2) (a b v : Value)
    (h : applyPrim2 p a b = .ok v) : v ≠ Value.vnone := by
  cases p <;> cases a <;> cases b <;>
    simp only [applyPrim2] at h <;>
    (try split_ifs at h) <;>
    (try exact Except.noConfusion h) <;>
    (obtain rfl := Except.ok.inj h; exact nofun)

theorem applyVal_ne_vnone (f a v : Value) (h : applyVal f a = .ok v) :
    v ≠ Value.vnone := by
  cases f with
  | vprim1 p => exact applyPrim1_ne_vnone p a v h
  | vprim2 p =>
    obtain rfl := Except.ok.inj h
    exact nofun
  | vpart p x => exact applyPrim2_ne_vnone p x a v h
  | vint n => exact Except.noConfusion h
  | vfloat q => exact Except.noConfusion h
  | vnone => exact Except.noConfusion h

/-- On a well-formed environment binding no name to `None`, evaluation
never returns the value `None`: the only producer of `None` is a `VAR`
lookup, and no binding carries it. -/
theorem eval_ok_ne_vnone (n : ZNode) : ∀ e : Env, EnvWF e → NoNone e →
    ∀ v : Value, (eval n e).1 = .ok v → v ≠ Value.vnone := by
  induction n with
  | INT m =>
    intro e _ _ v h
    obtain rfl := Except.ok.inj h
    exact nofun
  | VAR s =>
    intro e hwf hnn v h
    cases hg : envGet e s with
    | none =>
      have h1 : (eval (ZNode.VAR s) e).1 = .error (.nameError s) := by
        simp [eval, hg]
      rw [h1] at h
      exact Except.noConfusion h
    | some w =>
      have h1 : (eval (ZNode.VAR s) e).1 = .ok w := by
        simp [eval, hg]
      rw [h1] at h
      obtain rfl := Except.ok.inj h
      exact hnn (s, w) (envGet_mem e s w hg)
  | ADD a b iha ihb =>
    intro e hwf hnn v h
    rcases hva : eval a e with ⟨ra, e1⟩
    cases ra with
    | error er =>
      simp only [eval, hva] at h
      exact Except.noConfusion h
    | ok va =>
      rcases hvb : eval b e1 with ⟨rb, e2⟩
      cases rb with
      | error er =>
        simp only [eval, hva, hvb] at h
        exact Except.noConfusion h
      | ok vb =>
        simp only [eval, hva, hvb] at h
        exact vadd_ne_vnone va vb v h
  | MUL a b iha ihb =>
    intro e hwf hnn v h
    rcases hva : eval a e with ⟨ra, e1⟩
    cases ra with
    | error er =>
      simp only [eval, hva] at h
      exact Except.noConfusion h
    | ok va =>
      rcases hvb : eval b e1 with ⟨rb, e2⟩
      cases rb with
      | error er =>
        simp only [eval, hva, hvb] at h
        exact Except.noConfusion h
      | ok vb =>
        simp only [eval, hva, hvb] at h
        exact vmul_ne_vnone va vb v h
  | APPLY f a ihf iha =>
    intro e hwf hnn v h
    rcases hvf : eval f e with ⟨rf, e1⟩
    cases rf with
    | error er =>
      simp only [eval, hvf] at h
      exact Except.noConfusion h
    | ok vf =>
      rcases hva : eval a e1 with ⟨ra, e2⟩
      cases ra with
      | error er =>
        simp only [eval, hvf, hva] at h
        exact Except.noConfusion h
      | ok va =>
        simp only [eval, hvf, hva] at h
        exact applyVal_ne_vnone vf va v h
  | LET nm v0 b ihv ihb =>
    intro e hwf hnn v h
    rcases hvv : eval v0 e with ⟨rv, e1⟩
    cases rv with
    | error er =>
      simp only [eval, hvv] at h
      exact Except.noConfusion h
    | ok vv =>
      have hvvne : vv ≠ Value.vnone := ihv e hwf hnn vv (by rw [hvv])
      have he1wf : EnvWF e1 := by
        have h2 := (eval_env_spec v0 e hwf).1
        rwa [hvv] at h2
      have he1 : ∀ k, envGet e1 k = envGet e k := by
        have h2 := eval_preserves_env v0 e hwf hnn
        intro k
        have h3 := h2 k
        rwa [hvv] at h3
      have he1nn : NoNone e1 := noNone_of_envGet_eq e e1 he1wf he1 hnn
      have hwf2 : EnvWF (envSet e1 nm vv) := envWF_envSet e1 nm vv he1wf
      have hnn2 : NoNone (envSet e1 nm vv) :=
        noNone_envSet e1 nm vv hvvne he1nn
      rcases hvb : eval b (envSet e1 nm vv) with ⟨rb, e3⟩
      simp only [eval, hvv, hvb] at h
      by_cases hold : (envGet e1 nm).getD Value.vnone = Value.vnone
      · rw [if_pos hold] at h
        cases hdel : envDel? e3 nm with
        | some e4 =>
          rw [hdel] at h
          exact ihb (envSet e1 nm vv) hwf2 hnn2 v (by rw [hvb]; exact h)
        | none =>
          rw [hdel] at h
          exact Except.noConfusion h
      · rw [if_neg hold] at h
        exact ihb (envSet e1 nm vv) hwf2 hnn2 v (by rw [hvb]; exact h)

/-- A node in the `LET`-free packable expression subset never mutates the
environment (only the `LET` case of the evaluator touches it). -/
theorem eval_snd_exprPackable (z : ZNode) : exprPackable z = true →
    ∀ e : Env, (eval z e).2 = e := by
  induction z with
  | INT v => intro _ e; rfl
  | VAR s =>
    intro _ e
    rw [eval]
    cases envGet e s <;> rfl
  | ADD a b iha ihb =>
    intro hp e
    unfold exprPackable at hp
    rw [Bool.and_eq_true] at hp
    obtain ⟨hpa, hpb⟩ := hp
    rcases hva : eval a e with ⟨ra, e1⟩
    have he1 : e1 = e := by
      have h2 := iha hpa e
      rwa [hva] at h2
    rw [he1] at hva
    cases ra with
    | error er =>
      have hq : eval (ZNode.ADD a b) e = (.error er, e) := by
        simp only [eval, hva]
      rw [hq]
    | ok va =>
      rcases hvb : eval b e with ⟨rb, e2⟩
      have he2 : e2 = e := by
        have h2 := ihb hpb e
        rwa [hvb] at h2
      rw [he2] at hvb
      cases rb with
      | error er =>
        have hq : eval (ZNode.ADD a b) e = (.error er, e) := by
          simp only [eval, hva, hvb]
        rw [hq]
      | ok vb =>
        have hq : eval (ZNode.ADD a b) e = (vadd va vb, e) := by
          simp only [eval, hva, hvb]
        rw [hq]
  | MUL a b iha ihb =>
    intro hp e
    unfold exprPackable at hp
    rw [Bool.and_eq_true] at hp
    obtain ⟨hpa, hpb⟩ := hp
    rcases hva : eval a e with ⟨ra, e1⟩
    have he1 : e1 = e := by
      have h2 := iha hpa e
      rwa [hva] at h2
    rw [he1] at hva
    cases ra with
    | error er =>
      have hq : eval (ZNode.MUL a b) e = (.error er, e) := by
        simp only [eval, hva]
      rw [hq]
    | ok va =>
      rcases hvb : eval b e with ⟨rb, e2⟩
      have he2 : e2 = e := by
        have h2 := ihb hpb e
        rwa [hvb] at h2
      rw [he2] at hvb
      cases rb with
      | error er =>
        have hq : eval (ZNode.MUL a b) e = (.error er, e) := by
          simp only [eval, hva, hvb]
        rw [hq]
      | ok vb =>
        have hq : eval (ZNode.MUL a b) e = (vmul va vb, e) := by
          simp only [eval, hva, hvb]
        rw [hq]
  | APPLY f a ihf iha =>
    intro hp e
    unfold exprPackable at hp
    rw [Bool.and_eq_true, Bool.and_eq_true] at hp
    obtain ⟨⟨hpf, hsf⟩, hpa⟩ := hp
    rcases hvf : eval f e with ⟨rf, e1⟩
    have he1 : e1 = e := by
      have h2 := ihf hpf e
      rwa [hvf] at h2
    rw [he1] at hvf
    cases rf with
    | error er =>
      have hq : eval (ZNode.APPLY f a) e = (.error er, e) := by
        simp only [eval, hvf]
      rw [hq]
    | ok vf =>
      rcases hva : eval a e with ⟨ra, e2⟩
      have he2 : e2 = e := by
        have h2 := iha hpa e
        rwa [hva] at h2
      rw [he2] at hva
      cases ra with
      | error er =>
        have hq : eval (ZNode.APPLY f a) e = (.error er, e) := by
          simp only [eval, hvf, hva]
        rw [hq]
      | ok va =>
        have hq : eval (ZNode.APPLY f a) e = (applyVal vf va, e) := by
          simp only [eval, hvf, hva]
        rw [hq]
  | LET nm v b ihv ihb =>
    intro hp
    unfold exprPackable at hp
    simp at hp

/-- Sequential assignment evaluation of the hoisted pairs followed by the
final expression agrees with direct evaluation of the packable chain, on
well-formed environments binding no name to `None`. -/
theorem evalModule_eq_eval (z : ZNode) : ∀ e : Env, packable z = true →
    EnvWF e → NoNone e →
    evalModule e (letPairs z) (finalExpr z) = (eval z e).1 := by
  induction z with
  | INT v => intro e _ _ _; rfl
  | VAR s => intro e _ _ _; rfl
  | ADD a b iha ihb => intro e _ _ _; rfl
  | MUL a b iha ihb => intro e _ _ _; rfl
  | APPLY f a ihf iha => intro e _ _ _; rfl
  | LET nm v b ihv ihb =>
    intro e hp hwf hnn
    unfold packable at hp
    simp only [Bool.and_eq_true] at hp
    obtain ⟨⟨hnm, hpv⟩, hpb⟩ := hp
    rcases hvv : eval v e with ⟨rv, e1⟩
    have he1 : e1 = e := by
      have h2 := eval_snd_exprPackable v hpv e
      rwa [hvv] at h2
    rw [he1] at hvv
    rw [show letPairs (ZNode.LET nm v b) = (nm, v) :: letPairs b from rfl,
      show finalExpr (ZNode.LET nm v b) = finalExpr b from rfl]
    cases rv with
    | error er =>
      have hL : evalModule e ((nm, v) :: letPairs b) (finalExpr b) =
          .error er := by
        simp only [evalModule, hvv]
      have hR : (eval (ZNode.LET nm v b) e).1 = .error er := by
        simp only [eval, hvv]
      rw [hL, hR]
    | ok vv =>
      have hvvne : vv ≠ Value.vnone :=
        eval_ok_ne_vnone v e hwf hnn vv (by rw [hvv])
      have hwf2 : EnvWF (envSet e nm vv) := envWF_envSet e nm vv hwf
      have hnn2 : NoNone (envSet e nm vv) := noNone_envSet e nm vv hvvne hnn
      have hih := ihb (envSet e nm vv) hpb hwf2 hnn2
      rcases hvb : eval b (envSet e nm vv) with ⟨rb, e3⟩
      have hpe : ∀ k, envGet e3 k = envGet (envSet e nm vv) k := by
        have h2 := eval_preserves_env b (envSet e nm vv) hwf2 hnn2
        intro k
        have h3 := h2 k
        rwa [hvb] at h3
      have hget3 : envGet e3 nm = some vv := by
        rw [hpe nm, envGet_envSet_self]
      have hdel : envDel? e3 nm ≠ none := by
        intro hc
        have h2 := (envDel?_eq_none e3 nm).1 hc
        rw [hget3] at h2
        exact Option.noConfusion h2
      have hL : evalModule e ((nm, v) :: letPairs b) (finalExpr b) =
          (eval b (envSet e nm vv)).1 := by
        simp only [evalModule, hvv]
        exact hih
      have hR : (eval (ZNode.LET nm v b) e).1 = rb := by
        simp only [eval, hvv, hvb]
        by_cases hold : (envGet e nm).getD Value.vnone = Value.vnone
        · rw [if_pos hold]
          obtain ⟨e4, he4⟩ : ∃ e4, envDel? e3 nm = some e4 := by
            cases hdd : envDel? e3 nm with
            | some e5 => exact ⟨e5, rfl⟩
            | none => exact absurd hdd hdel
          rw [he4]
        · rw [if_neg hold]
      rw [hL, hR, hvb]

/-- The parser fuel budget `length + 1` used on a whole line suffices for
any packable rendered expression. -/
theorem zfuel_le_renderE (z : ZNode) : exprPackable z = true →
    zfuel z ≤ (renderE z).length + 1 := by
  induction z with
  | INT v =>
    intro _
    have h1 : zfuel (ZNode.INT v) = 1 := rfl
    omega
  | VAR s =>
    intro hp
    obtain ⟨c, t, hs, _, _⟩ := isIdent_toList s hp
    have h1 : renderE (ZNode.VAR s) = c :: t := by rw [renderE_VAR, hs]
    have h2 : zfuel (ZNode.VAR s) = 2 := rfl
    rw [h1, h2]
    simp only [List.length_cons]
    omega
  | ADD a b iha ihb =>
    intro hp
    unfold exprPackable at hp
    rw [Bool.and_eq_true] at hp
    have ha := iha hp.1
    have hb := ihb hp.2
    have h1 : (renderE (ZNode.ADD a b)).length =
        (renderE a).length + (renderE b).length + 5 := by
      rw [renderE_ADD]
      simp [List.length_append]
      omega
    have h2 : zfuel (ZNode.ADD a b) = 1 + zfuel a + zfuel b := rfl
    omega
  | MUL a b iha ihb =>
    intro hp
    unfold exprPackable at hp
    rw [Bool.and_eq_true] at hp
    have ha := iha hp.1
    have hb := ihb hp.2
    have h1 : (renderE (ZNode.MUL a b)).length =
        (renderE a).length + (renderE b).length + 5 := by
      rw [renderE_MUL]
      simp [List.length_append]
      omega
    have h2 : zfuel (ZNode.MUL a b) = 1 + zfuel a + zfuel b := rfl
    omega
  | APPLY f a ihf iha =>
    intro hp
    unfold exprPackable at hp
    rw [Bool.and_eq_true, Bool.and_eq_true] at hp
    obtain ⟨⟨hpf, _⟩, hpa⟩ := hp
    have hf := ihf hpf
    have ha := iha hpa
    have h1 : (renderE (ZNode.APPLY f a)).length =
        (renderE f).length + (renderE a).length + 2 := by
      rw [renderE_APPLY]
      simp [List.length_append]
      omega
    have h2 : zfuel (ZNode.APPLY f a) = 1 + zfuel f + zfuel a := rfl
    omega
  | LET nm v b ihv ihb =>
    intro hp
    unfold exprPackable at hp
    simp at hp

/-- The final-expression line of the emitted text parses back to the
rendered node. -/
theorem parseExprLine_render (z : ZNode) (hp : exprPackable z = true) :
    parseExprLine (renderE z) = some z := by
  unfold parseExprLine
  have h1 : pExpr ((renderE z).length + 1) (renderE z ++ []) = some (z, []) :=
    pExpr_render (zfuel z) z le_rfl hp [] ((renderE z).length + 1) rfl
      (zfuel_le_renderE z hp)
  rw [List.append_nil] at h1
  rw [h1]

theorem isIdCharB_space : isIdCharB ' ' = false :=
  isIdCharB_eq_false ' ' (by
    have h32 : (' ').toNat = 32 := rfl
    omega)

/-- Each emitted assignment line parses back to its name and bound
expression. -/
theorem parseAssignLine_render (nm : String) (v : ZNode)
    (h1 : isIdent nm = true) (h2 : exprPackable v = true) :
    parseAssignLine (nm.toList ++ ' ' :: '=' :: ' ' :: renderE v) =
      some (nm, v) := by
  obtain ⟨c, t, hs, hstart, hall⟩ := isIdent_toList nm h1
  have hall' : ∀ x ∈ c :: t, isIdCharB x = true := by
    rw [← hs]
    exact hall
  have hdrop : ((c :: t) ++ (' ' :: '=' :: ' ' :: renderE v)).dropWhile
      isIdCharB = ' ' :: '=' :: ' ' :: renderE v :=
    dropWhile_append_stop2 _ _ _ _ hall' isIdCharB_space
  have htake : ((c :: t) ++ (' ' :: '=' :: ' ' :: renderE v)).takeWhile
      isIdCharB = c :: t :=
    takeWhile_append_stop2 _ _ _ _ hall' isIdCharB_space
  have hping : pExpr ((renderE v).length + 1) (renderE v ++ []) =
      some (v, []) :=
    pExpr_render (zfuel v) v le_rfl h2 [] ((renderE v).length + 1) rfl
      (zfuel_le_renderE v h2)
  rw [List.append_nil] at hping
  have hline : nm.toList ++ ' ' :: '=' :: ' ' :: renderE v =
      c :: (t ++ (' ' :: '=' :: ' ' :: renderE v)) := by
    rw [hs]
    rfl
  rw [hline]
  simp only [parseAssignLine, hstart, if_true]
  simp only [show c :: (t ++ (' ' :: '=' :: ' ' :: renderE v)) =
    (c :: t) ++ (' ' :: '=' :: ' ' :: renderE v) from rfl, hdrop, htake,
    hping]
  rw [← hs, String_mk_toList]

theorem z_to_py_fst_nil (z : ZNode) : exprPackable z = true →
    (z_to_py z).1 = [] := by
  induction z with
  | INT v => intro _; rfl
  | VAR s => intro _; rfl
  | ADD a b iha ihb =>
    intro hp
    unfold exprPackable at hp
    rw [Bool.and_eq_true] at hp
    simp only [z_to_py]
    rw [iha hp.1, ihb hp.2]
    rfl
  | MUL a b iha ihb =>
    intro hp
    unfold exprPackable at hp
    rw [Bool.and_eq_true] at hp
    simp only [z_to_py]
    rw [iha hp.1, ihb hp.2]
    rfl
  | APPLY f a ihf iha =>
    intro hp
    unfold exprPackable at hp
    rw [Bool.and_eq_true, Bool.and_eq_true] at hp
    simp only [z_to_py]
    rw [ihf hp.1.1, iha hp.2]
    rfl
  | LET nm v b ihv ihb =>
    intro hp
    unfold exprPackable at hp
    simp at hp

theorem letPairs_packable (z : ZNode) : packable z = true →
    ∀ p ∈ letPairs z, isIdent p.1 = true ∧ exprPackable p.2 = true := by
  induction z with
  | LET nm v b ihv ihb =>
    intro hp p hpmem
    unfold packable at hp
    simp only [Bool.and_eq_true] at hp
    obtain ⟨⟨hnm, hpv⟩, hpb⟩ := hp
    rcases List.mem_cons.1 hpmem with rfl | h
    · exact ⟨hnm, hpv⟩
    · exact ihb hpb p h
  | INT v => intro _ p hpmem; simp [letPairs] at hpmem
  | VAR s => intro _ p hpmem; simp [letPairs] at hpmem
  | ADD a b iha ihb => intro _ p hpmem; simp [letPairs] at hpmem
  | MUL a b iha ihb => intro _ p hpmem; simp [letPairs] at hpmem
  | APPLY f a ihf iha => intro _ p hpmem; simp [letPairs] at hpmem

theorem finalExpr_packable (z : ZNode) : packable z = true →
    exprPackable (finalExpr z) = true := by
  induction z with
  | LET nm v b ihv ihb =>
    intro hp
    unfold packable at hp
    simp only [Bool.and_eq_true] at hp
    exact ihb hp.2
  | INT v => intro hp; exact hp
  | VAR s => intro hp; exact hp
  | ADD a b iha ihb => intro hp; exact hp
  | MUL a b iha ihb => intro hp; exact hp
  | APPLY f a ihf iha => intro hp; exact hp

/-- Structure of the emitted text of a packable chain: the hoisted lines
are exactly the assignment renderings of the let pairs, in order, and the
final line is the rendering of the final expression. -/
theorem z_to_py_packable (z : ZNode) : packable z = true →
    (z_to_py z).1 = (letPairs z).map
        (fun p => p.1.toList ++ ' ' :: '=' :: ' ' :: renderE p.2) ∧
    (z_to_py z).2 = renderE (finalExpr z) := by
  induction z with
  | LET nm v b ihv ihb =>
    intro hp
    unfold packable at hp
    simp only [Bool.and_eq_true] at hp
    obtain ⟨⟨hnm, hpv⟩, hpb⟩ := hp
    obtain ⟨ih1, ih2⟩ := ihb hpb
    constructor
    · simp only [z_to_py, renderE]
      rw [z_to_py_fst_nil v hpv, List.nil_append, ih1]
      rw [show letPairs (ZNode.LET nm v b) = (nm, v) :: letPairs b from rfl,
        List.map_cons]
      simp only [renderE]
    · simp only [z_to_py]
      rw [ih2, show finalExpr (ZNode.LET nm v b) = finalExpr b from rfl]
  | INT v =>
    intro hp
    exact ⟨by rw [z_to_py_fst_nil _ hp]; rfl, rfl⟩
  | VAR s =>
    intro hp
    exact ⟨by rw [z_to_py_fst_nil _ hp]; rfl, rfl⟩
  | ADD a b iha ihb =>
    intro hp
    exact ⟨by rw [z_to_py_fst_nil _ hp]; rfl, rfl⟩
  | MUL a b iha ihb =>
    intro hp
    exact ⟨by rw [z_to_py_fst_nil _ hp]; rfl, rfl⟩
  | APPLY f a ihf iha =>
    intro hp
    exact ⟨by rw [z_to_py_fst_nil _ hp]; rfl, rfl⟩

/-- Parse the block of emitted assignment lines, in order; fails if any
line fails. -/
def parseAssigns : List (List Char) → Option (List (String × ZNode))
  | [] => some []
  | l :: ls =>
    match parseAssignLine l with
    | some p => (parseAssigns ls).map (fun ps => p :: ps)
    | none => none

theorem parseAssigns_render : ∀ ps : List (String × ZNode),
    (∀ p ∈ ps, isIdent p.1 = true ∧ exprPackable p.2 = true) →
    parseAssigns
      (ps.map (fun p => p.1.toList ++ ' ' :: '=' :: ' ' :: renderE p.2)) =
      some ps := by
  intro ps
  induction ps with
  | nil => intro _; rfl
  | cons q ps ih =>
    intro h
    obtain ⟨hq1, hq2⟩ := h q (List.mem_cons_self _ _)
    have hq : parseAssignLine (q.1.toList ++ ' ' :: '=' :: ' ' ::
        renderE q.2) = some (q.1, q.2) :=
      parseAssignLine_render q.1 q.2 hq1 hq2
    have ihh := ih (fun p hp => h p (List.mem_cons_of_mem _ hp))
    simp only [List.map_cons, parseAssigns, hq, ihh, Option.map_some']

/-- Claim C2 (amended): for every AST packable by Variant B and every
well-formed environment binding no name to `None`, the source-like text
emitted on unpack round-trips and evaluates equivalently: the hoisted
assignment lines parse back to exactly the chain's let pairs, the final
line parses back to the chain's final expression, and Python-style
sequential evaluation of those assignments followed by the final
expression over the given environment returns exactly the value (or
raises exactly the exception) of evaluating the original AST on that
environment.  The no-`None` proviso is necessary: a `None` binding makes
the `let` epilogue of `Runtime.eval` delete instead of restore, and the
two evaluations diverge. -/
theorem z_to_py_eval_equiv (z : ZNode) (e : Env) (hp : packable z = true)
    (hwf : EnvWF e) (hnn : NoNone e) :
    parseAssigns (z_to_py z).1 = some (letPairs z) ∧
    parseExprLine (z_to_py z).2 = some (finalExpr z) ∧
    evalModule e (letPairs z) (finalExpr z) = (eval z e).1 := by
  obtain ⟨h1, h2⟩ := z_to_py_packable z hp
  refine ⟨?_, ?_, ?_⟩
  · rw [h1]
    exact parseAssigns_render (letPairs z) (letPairs_packable z hp)
  · rw [h2]
    exact parseExprLine_render (finalExpr z) (finalExpr_packable z hp)
  · exact evalModule_eq_eval z e hp hwf hnn

/-- Claim C2 counterexample: under the well-formed environment binding
`z` to `None`, the packable chain `let x -> z in (let x -> 5 in 1)` (two
distinct let bindings reusing the name `x`) diverges from its emitted
text: the text parses back exactly and evaluates to `1`, while
`Runtime.eval` on the original AST raises `KeyError` (the `finally`
epilogue of the inner `let` deletes `x` because the saved binding `None`
is conflated with absence, and the outer epilogue then deletes it
again). -/
theorem z_to_py_eval_counterexample :
    packable (ZNode.LET "x" (.VAR "z") (.LET "x" (.INT 5) (.INT 1))) =
      true ∧
    EnvWF [("z", Value.vnone)] ∧
    parseAssigns
        (z_to_py (ZNode.LET "x" (.VAR "z")
          (.LET "x" (.INT 5) (.INT 1)))).1 =
      some (letPairs (ZNode.LET "x" (.VAR "z")
        (.LET "x" (.INT 5) (.INT 1)))) ∧
    parseExprLine
        (z_to_py (ZNode.LET "x" (.VAR "z")
          (.LET "x" (.INT 5) (.INT 1)))).2 =
      some (finalExpr (ZNode.LET "x" (.VAR "z")
        (.LET "x" (.INT 5) (.INT 1)))) ∧
    evalModule [("z", Value.vnone)]
        (letPairs (ZNode.LET "x" (.VAR "z") (.LET "x" (.INT 5) (.INT 1))))
        (finalExpr (ZNode.LET "x" (.VAR "z")
          (.LET "x" (.INT 5) (.INT 1)))) =
      .ok (.vint 1) ∧
    (eval (ZNode.LET "x" (.VAR "z") (.LET "x" (.INT 5) (.INT 1)))
        [("z", Value.vnone)]).1 =
      .error .keyError := by
  refine ⟨by decide, by decide, rfl, rfl, rfl, rfl⟩

/-- Claim C2 witness: the equivalence applied at a concrete packable
chain and environment. -/
theorem z_to_py_eval_equiv_witness :
    (packable (ZNode.LET "x" (.INT 2) (.ADD (.VAR "x") (.VAR "y"))) =
      true ∧
    EnvWF [("y", Value.vint 7)] ∧ NoNone [("y", Value.vint 7)]) ∧
    (parseAssigns
        (z_to_py (ZNode.LET "x" (.INT 2)
          (.ADD (.VAR "x") (.VAR "y")))).1 =
      some (letPairs (ZNode.LET "x" (.INT 2)
        (.ADD (.VAR "x") (.VAR "y")))) ∧
    parseExprLine
        (z_to_py (ZNode.LET "x" (.INT 2)
          (.ADD (.VAR "x") (.VAR "y")))).2 =
      some (finalExpr (ZNode.LET "x" (.INT 2)
        (.ADD (.VAR "x") (.VAR "y")))) ∧
    evalModule [("y", Value.vint 7)]
        (letPairs (ZNode.LET "x" (.INT 2) (.ADD (.VAR "x") (.VAR "y"))))
        (finalExpr (ZNode.LET "x" (.INT 2)
          (.ADD (.VAR "x") (.VAR "y")))) =
      (eval (ZNode.LET "x" (.INT 2) (.ADD (.VAR "x") (.VAR "y")))
        [("y", Value.vint 7)]).1) :=
  ⟨⟨by decide, by decide, by decide⟩,
    z_to_py_eval_equiv (ZNode.LET "x" (.INT 2)
        (.ADD (.VAR "x") (.VAR "y"))) [("y", Value.vint 7)]
      (by decide) (by decide) (by decide)⟩

end Collapse
